import Mathlib

/-!
Verification of the `dux` disk-usage analyzer (with its earlier `diskanalysis`
variant) against its natural-language specification.

Strings are embedded as `List Char` (`Str` below): Python's `str` operations
(`lower`, `startswith`, `endswith`, slicing, `in`) act on sequences of code
points, which `List Char` models exactly, and `List Char` computations reduce
inside the Lean kernel so that concrete runs can be checked by `decide`.

Python `list.sort(key=..., reverse=True)` and `sorted(..., reverse=True)` are
stable sorts; a stable sort's output is uniquely determined by the input, so
they are embedded as a stable insertion sort by a `Nat` key, descending.
-/

namespace Dux

/-- Code-point strings; the embedding of Python `str`. -/
abbrev Str := List Char

/-- Python `s.lower()` (the repository only lowercases ASCII paths/patterns). -/
def lowerStr (s : Str) : Str := s.map Char.toLower

/-- `dux.models.enums.NodeKind`. -/
inductive NodeKind
  | file
  | directory
deriving DecidableEq, Repr

/-- `dux.models.enums.InsightCategory` (a `str` enum: `temp`, `cache`,
`build_artifact`). -/
inductive InsightCategory
  | temp
  | cache
  | build_artifact
deriving DecidableEq, Repr

/-- The `.value` string of the `InsightCategory` `str` enum. -/
def InsightCategory.value : InsightCategory → Str
  | .temp => "temp".toList
  | .cache => "cache".toList
  | .build_artifact => "build_artifact".toList

/-- Iteration order of `for cat in InsightCategory` (declaration order). -/
def allCategories : List InsightCategory := [.temp, .cache, .build_artifact]

/-- `dux.models.enums.ApplyTo`, an `IntFlag`: `FILE = 1`, `DIR = 2`,
`BOTH = FILE | DIR`. -/
inductive ApplyTo
  | FILE
  | DIR
  | BOTH
deriving DecidableEq, Repr

/-- The dynamically-typed value held in `PatternRule.apply_to`.  The dataclass
annotates it as `ApplyTo`, and the config loader stores `ApplyTo` members, but
`dux.services.insights.generate_insights` builds rules whose `apply_to` is the
plain string `"both"`, and `dux.services.patterns` compares the field against
the strings `"file"` / `"dir"` / `"both"`.  Both shapes therefore occur at
runtime and the embedding keeps them apart. -/
inductive ApplyToVal
  | ofStr (s : Str)
  | ofEnum (a : ApplyTo)
deriving DecidableEq, Repr

/-- Python `==` between an `apply_to` value and a string literal: a string
compares by contents, while an `IntFlag` member never equals a `str`. -/
def ApplyToVal.eqStr : ApplyToVal → Str → Bool
  | .ofStr s, t => s == t
  | .ofEnum _, _ => false

/-- `dux.config.schema.PatternRule`. -/
structure PatternRule where
  name : Str
  pattern : Str
  category : InsightCategory
  apply_to : ApplyToVal
  stop_recursion : Bool
deriving DecidableEq, Repr

/-- `ScanNode` of the scan tree.  Modelled from the spec: `dux.models.scan` is
not under `src/` (only its callers are); spec §3 fixes the fields — `path`,
`name`, `kind`, `size_bytes`, `disk_usage`, `children` — and the
`diskanalysis.models.scan.ScanNode` dataclass in `src/` has the same shape
(minus `disk_usage`).  Sizes are non-negative integers. -/
inductive ScanNode where
  | mk (path name : Str) (kind : NodeKind) (size_bytes disk_usage : Nat)
      (children : List ScanNode)
deriving Repr

def ScanNode.path : ScanNode → Str
  | .mk p _ _ _ _ _ => p

def ScanNode.name : ScanNode → Str
  | .mk _ n _ _ _ _ => n

def ScanNode.kind : ScanNode → NodeKind
  | .mk _ _ k _ _ _ => k

def ScanNode.size_bytes : ScanNode → Nat
  | .mk _ _ _ sb _ _ => sb

def ScanNode.disk_usage : ScanNode → Nat
  | .mk _ _ _ _ du _ => du

def ScanNode.children : ScanNode → List ScanNode
  | .mk _ _ _ _ _ cs => cs

/-- The `is_dir` property of a scan node (`kind is NodeKind.DIRECTORY`). -/
def ScanNode.is_dir (n : ScanNode) : Bool := n.kind == .directory

mutual

/-- Structural equality test for `ScanNode` (deriving cannot handle the nested
inductive, so decidable equality is built by hand). -/
def ScanNode.beq : ScanNode → ScanNode → Bool
  | .mk p n k sb du cs, .mk p' n' k' sb' du' cs' =>
    p == p' && n == n' && k == k' && sb == sb' && du == du' && beqNodeL cs cs'

def beqNodeL : List ScanNode → List ScanNode → Bool
  | [], [] => true
  | c :: cs, d :: ds => ScanNode.beq c d && beqNodeL cs ds
  | _, _ => false

end

mutual

/-- Structural induction for the nested inductive `ScanNode`. -/
theorem ScanNode.inductionOn {motive : ScanNode → Prop}
    (h : ∀ p n k sb du cs, (∀ c ∈ cs, motive c) → motive (.mk p n k sb du cs)) :
    ∀ t, motive t
  | .mk p n k sb du cs =>
    h p n k sb du cs (fun c hc => inductionOnL h cs c hc)

theorem inductionOnL {motive : ScanNode → Prop}
    (h : ∀ p n k sb du cs, (∀ c ∈ cs, motive c) → motive (.mk p n k sb du cs)) :
    ∀ (l : List ScanNode), ∀ c ∈ l, motive c
  | [], c, hc => absurd hc (List.not_mem_nil c)
  | d :: ds, c, hc => by
    rcases List.mem_cons.1 hc with rfl | hc'
    · exact ScanNode.inductionOn h c
    · exact inductionOnL h ds c hc'

end

theorem ScanNode.beq_iff (a : ScanNode) : ∀ b, (ScanNode.beq a b = true) ↔ a = b := by
  induction a using ScanNode.inductionOn with
  | h p n k sb du cs ih =>
    have listCase : ∀ (cs' : List ScanNode) (l : List ScanNode),
        (∀ c ∈ l, ∀ b, (ScanNode.beq c b = true) ↔ c = b) →
        ((beqNodeL l cs' = true) ↔ l = cs') := by
      intro cs'
      induction cs' with
      | nil =>
        intro l hl
        cases l with
        | nil => simp [beqNodeL]
        | cons c cs => simp [beqNodeL]
      | cons d ds ihd =>
        intro l hl
        cases l with
        | nil => simp [beqNodeL]
        | cons c cs =>
          simp only [beqNodeL, Bool.and_eq_true]
          rw [hl c (List.mem_cons_self _ _) d,
            ihd cs (fun c' hc' => hl c' (List.mem_cons_of_mem _ hc'))]
          simp
    intro b
    cases b with
    | mk p' n' k' sb' du' cs' =>
      simp only [ScanNode.beq, Bool.and_eq_true]
      rw [listCase cs' cs ih]
      constructor
      · rintro ⟨⟨⟨⟨⟨h1, h2⟩, h3⟩, h4⟩, h5⟩, h6⟩
        rw [eq_of_beq h1, eq_of_beq h2, eq_of_beq h3, eq_of_beq h4,
          eq_of_beq h5, h6]
      · intro hEq
        cases hEq
        simp

instance : DecidableEq ScanNode := fun a b =>
  decidable_of_iff _ (ScanNode.beq_iff a b)

mutual

/-- All nodes of a subtree, root first (pre-order). -/
def ScanNode.allNodes : ScanNode → List ScanNode
  | .mk p n k sb du cs => .mk p n k sb du cs :: allNodesL cs

/-- All nodes of a forest, in order. -/
def allNodesL : List ScanNode → List ScanNode
  | [] => []
  | c :: cs => c.allNodes ++ allNodesL cs

end

/-- Proper descendants of a node: all nodes strictly below it. -/
def ScanNode.properDesc (n : ScanNode) : List ScanNode := allNodesL n.children

theorem allNodes_def (t : ScanNode) :
    t.allNodes = t :: allNodesL t.children := by
  cases t; rfl

theorem allNodesL_eq_flatMap (l : List ScanNode) :
    allNodesL l = l.flatMap ScanNode.allNodes := by
  induction l with
  | nil => rfl
  | cons c cs ih => simp [allNodesL, ih]

theorem self_mem_allNodes (t : ScanNode) : t ∈ t.allNodes := by
  rw [allNodes_def]; exact List.mem_cons_self _ _

-- ---------------------------------------------------------------------------
-- Stable descending sort by a Nat key: the embedding of Python's
-- `list.sort(key=..., reverse=True)` / `sorted(..., key=..., reverse=True)`.
-- ---------------------------------------------------------------------------

/-- Insert `x` behind every element whose key is at least `key x`
(stable descending insertion). -/
def insertByDesc (key : α → Nat) (x : α) : List α → List α
  | [] => [x]
  | y :: ys => if key y < key x then x :: y :: ys else y :: insertByDesc key x ys

/-- Stable sort, descending by `key`. -/
def sortByDesc (key : α → Nat) : List α → List α
  | [] => []
  | x :: xs => insertByDesc key x (sortByDesc key xs)

theorem insertByDesc_perm (key : α → Nat) (x : α) (l : List α) :
    List.Perm (insertByDesc key x l) (x :: l) := by
  induction l with
  | nil => exact List.Perm.refl _
  | cons y ys ih =>
    by_cases h : key y < key x
    · simp only [insertByDesc, if_pos h]
      exact List.Perm.refl _
    · simp only [insertByDesc, if_neg h]
      exact ((ih.cons y).trans (List.Perm.swap x y ys))

theorem sortByDesc_perm (key : α → Nat) (l : List α) :
    List.Perm (sortByDesc key l) l := by
  induction l with
  | nil => exact List.Perm.refl _
  | cons x xs ih => exact (insertByDesc_perm key x _).trans (ih.cons x)

theorem insertByDesc_pairwise (key : α → Nat) (x : α) (l : List α)
    (h : l.Pairwise (fun a b => key b ≤ key a)) :
    (insertByDesc key x l).Pairwise (fun a b => key b ≤ key a) := by
  induction l with
  | nil => simp [insertByDesc]
  | cons y ys ih =>
    rcases List.pairwise_cons.1 h with ⟨hy, hys⟩
    by_cases hk : key y < key x
    · simp only [insertByDesc, if_pos hk]
      refine List.pairwise_cons.2 ⟨?_, h⟩
      intro b hb
      rcases List.mem_cons.1 hb with rfl | hb
      · omega
      · have := hy b hb; omega
    · simp only [insertByDesc, if_neg hk]
      refine List.pairwise_cons.2 ⟨?_, ih hys⟩
      intro b hb
      have hb' := (insertByDesc_perm key x ys).mem_iff.1 hb
      rcases List.mem_cons.1 hb' with rfl | hb'
      · omega
      · exact hy b hb'

theorem sortByDesc_pairwise (key : α → Nat) (l : List α) :
    (sortByDesc key l).Pairwise (fun a b => key b ≤ key a) := by
  induction l with
  | nil => simp [sortByDesc]
  | cons x xs ih => exact insertByDesc_pairwise key x _ ih

theorem mem_sortByDesc {key : α → Nat} {l : List α} {x : α} :
    x ∈ sortByDesc key l ↔ x ∈ l := (sortByDesc_perm key l).mem_iff

-- ---------------------------------------------------------------------------
-- `dux.services.scanner._finalize_sizes`
-- ---------------------------------------------------------------------------

mutual

/-- `_finalize_sizes` (dux/services/scanner.py:31-43) as a function on trees.
The source walks the tree iteratively, collecting directories so that every
directory is processed after all of its directory descendants, then assigns
`size_bytes` / `disk_usage` as the sum over (already finalized) children and
sorts the children by `disk_usage` descending; files (and their contents) are
left untouched.  That bottom-up order is exactly this recursion. -/
def finalizeNode : ScanNode → ScanNode
  | .mk p n k sb du cs =>
    match k with
    | .file => .mk p n .file sb du cs
    | .directory =>
      let cs' := finalizeList cs
      .mk p n .directory
        ((cs'.map ScanNode.size_bytes).sum)
        ((cs'.map ScanNode.disk_usage).sum)
        (sortByDesc ScanNode.disk_usage cs')

def finalizeList : List ScanNode → List ScanNode
  | [] => []
  | c :: cs => finalizeNode c :: finalizeList cs

end

theorem finalizeList_eq_map (l : List ScanNode) :
    finalizeList l = l.map finalizeNode := by
  induction l with
  | nil => rfl
  | cons c cs ih => simp [finalizeList, ih]

/-- Trees produced by a successful scan: file nodes have no children. -/
def filesHaveNoChildren (t : ScanNode) : Prop :=
  ∀ n ∈ t.allNodes, n.is_dir = false → n.children = []

instance (t : ScanNode) : Decidable (filesHaveNoChildren t) := by
  unfold filesHaveNoChildren; infer_instance

theorem filesHaveNoChildren_child {t c : ScanNode}
    (h : filesHaveNoChildren t) (hc : c ∈ t.children) :
    filesHaveNoChildren c := by
  intro n hn hdir
  refine h n ?_ hdir
  rw [allNodes_def, allNodesL_eq_flatMap]
  exact List.mem_cons_of_mem _ (List.mem_flatMap.2 ⟨c, hc, hn⟩)

theorem mem_allNodesL {d : ScanNode} {l : List ScanNode} :
    d ∈ allNodesL l ↔ ∃ c ∈ l, d ∈ c.allNodes := by
  rw [allNodesL_eq_flatMap, List.mem_flatMap]

theorem sum_map_of_perm {l₁ l₂ : List α} (f : α → Nat) (h : List.Perm l₁ l₂) :
    (l₁.map f).sum = (l₂.map f).sum :=
  ((h.map f).sum_eq)

/-- C1: after `_finalize_sizes` runs on a scanned tree (where file nodes carry
no children), every directory's `size_bytes` and `disk_usage` equal the sums
over its children; files are untouched by construction and an empty directory
sums to zero. -/
theorem finalize_dir_sizes (t : ScanNode) (hwf : filesHaveNoChildren t) :
    ∀ d ∈ (finalizeNode t).allNodes, d.is_dir = true →
      d.size_bytes = (d.children.map ScanNode.size_bytes).sum ∧
      d.disk_usage = (d.children.map ScanNode.disk_usage).sum := by
  induction t using ScanNode.inductionOn with
  | h p n k sb du cs ih =>
    intro d hd hdir
    cases k with
    | file =>
      have hcs : cs = [] := by
        have := hwf (ScanNode.mk p n .file sb du cs) (self_mem_allNodes _)
        simp [ScanNode.is_dir, ScanNode.kind, ScanNode.children] at this
        exact this
      subst hcs
      simp only [finalizeNode, allNodes_def, ScanNode.children, allNodesL,
        List.mem_singleton] at hd
      subst hd
      simp [ScanNode.is_dir, ScanNode.kind] at hdir
    | directory =>
      simp only [finalizeNode, allNodes_def, ScanNode.children] at hd
      rcases List.mem_cons.1 hd with rfl | hd'
      · refine ⟨?_, ?_⟩
        · simp only [ScanNode.size_bytes, ScanNode.children]
          exact (sum_map_of_perm ScanNode.size_bytes
            (sortByDesc_perm ScanNode.disk_usage (finalizeList cs))).symm
        · simp only [ScanNode.disk_usage, ScanNode.children]
          exact (sum_map_of_perm ScanNode.disk_usage
            (sortByDesc_perm ScanNode.disk_usage (finalizeList cs))).symm
      · rcases mem_allNodesL.1 hd' with ⟨c', hc', hdc⟩
        have hc'' : c' ∈ finalizeList cs := mem_sortByDesc.1 hc'
        rw [finalizeList_eq_map] at hc''
        rcases List.mem_map.1 hc'' with ⟨c, hc, rfl⟩
        have hchild : c ∈ (ScanNode.mk p n .directory sb du cs).children := hc
        exact ih c hc (filesHaveNoChildren_child hwf hchild) d hdc hdir

/-- C7: after `_finalize_sizes`, every directory's children are sorted by
`disk_usage` in descending (non-increasing) order. -/
theorem finalize_children_sorted (t : ScanNode) (hwf : filesHaveNoChildren t) :
    ∀ d ∈ (finalizeNode t).allNodes, d.is_dir = true →
      d.children.Pairwise (fun a b => b.disk_usage ≤ a.disk_usage) := by
  induction t using ScanNode.inductionOn with
  | h p n k sb du cs ih =>
    intro d hd hdir
    cases k with
    | file =>
      have hcs : cs = [] := by
        have := hwf (ScanNode.mk p n .file sb du cs) (self_mem_allNodes _)
        simp [ScanNode.is_dir, ScanNode.kind, ScanNode.children] at this
        exact this
      subst hcs
      simp only [finalizeNode, allNodes_def, ScanNode.children, allNodesL,
        List.mem_singleton] at hd
      subst hd
      simp [ScanNode.is_dir, ScanNode.kind] at hdir
    | directory =>
      simp only [finalizeNode, allNodes_def, ScanNode.children] at hd
      rcases List.mem_cons.1 hd with rfl | hd'
      · simp only [ScanNode.children]
        exact sortByDesc_pairwise ScanNode.disk_usage (finalizeList cs)
      · rcases mem_allNodesL.1 hd' with ⟨c', hc', hdc⟩
        have hc'' : c' ∈ finalizeList cs := mem_sortByDesc.1 hc'
        rw [finalizeList_eq_map] at hc''
        rcases List.mem_map.1 hc'' with ⟨c, hc, rfl⟩
        have hchild : c ∈ (ScanNode.mk p n .directory sb du cs).children := hc
        exact ih c hc (filesHaveNoChildren_child hwf hchild) d hdc hdir

/-- Sample scan tree from spec §8 scenario 1: `/root/big.bin:128`,
`/root/small.bin:32`, `/root/sub/nested.bin:64` (disk usage equals size). -/
def sampleTreeC1 : ScanNode :=
  .mk "/root".toList "root".toList .directory 0 0
    [ .mk "/root/big.bin".toList "big.bin".toList .file 128 128 [],
      .mk "/root/small.bin".toList "small.bin".toList .file 32 32 [],
      .mk "/root/sub".toList "sub".toList .directory 0 0
        [ .mk "/root/sub/nested.bin".toList "nested.bin".toList .file 64 64 [] ] ]

/-- Witness for C1 at a concrete tree: the hypotheses hold and the finalized
root satisfies the summed-size invariant. -/
theorem finalize_dir_sizes_witness :
    filesHaveNoChildren sampleTreeC1 ∧
      ((finalizeNode sampleTreeC1).size_bytes
          = (((finalizeNode sampleTreeC1).children.map ScanNode.size_bytes).sum) ∧
        (finalizeNode sampleTreeC1).disk_usage
          = (((finalizeNode sampleTreeC1).children.map ScanNode.disk_usage).sum)) :=
  ⟨by decide,
    finalize_dir_sizes sampleTreeC1 (by decide) (finalizeNode sampleTreeC1)
      (self_mem_allNodes _) (by decide)⟩

/-- Sample scan tree for the C7 witness (two files and a subdirectory with
distinct sizes, initially unsorted). -/
def sampleTreeC7 : ScanNode :=
  .mk "/r".toList "r".toList .directory 0 0
    [ .mk "/r/a".toList "a".toList .file 32 32 [],
      .mk "/r/b".toList "b".toList .file 128 128 [],
      .mk "/r/c".toList "c".toList .directory 0 0
        [ .mk "/r/c/n".toList "n".toList .file 64 64 [] ] ]

/-- Witness for C7 at a concrete tree: the finalized root's children are
sorted by `disk_usage` descending. -/
theorem finalize_children_sorted_witness :
    filesHaveNoChildren sampleTreeC7 ∧
      (finalizeNode sampleTreeC7).children.Pairwise
        (fun a b => b.disk_usage ≤ a.disk_usage) :=
  ⟨by decide,
    finalize_children_sorted sampleTreeC7 (by decide) (finalizeNode sampleTreeC7)
      (self_mem_allNodes _) (by decide)⟩

-- ---------------------------------------------------------------------------
-- `dux.services.patterns`
-- ---------------------------------------------------------------------------

/-- `_has_glob_chars` (patterns.py:26): `"*" in s or "?" in s or "[" in s`. -/
def hasGlobChars (s : Str) : Bool :=
  s.contains '*' || s.contains '?' || s.contains '['

/-- Matcher kinds (patterns.py:12-16); the source uses small integers. -/
inductive MatcherKind
  | CONTAINS
  | ENDSWITH
  | STARTSWITH
  | EXACT
  | GLOB
deriving DecidableEq, Repr

/-- `_Matcher` (patterns.py:19-23). -/
structure Matcher where
  kind : MatcherKind
  value : Str
  alt : Str
deriving DecidableEq, Repr

/-- `_classify` (patterns.py:30-61), ported branch by branch. -/
def classify (pattern : Str) : Matcher :=
  if ¬ ("**/".toList.isPrefixOf pattern) then
    ⟨.GLOB, lowerStr pattern, []⟩
  else
    let rest := pattern.drop 3
    if "/**".toList.isSuffixOf rest then
      let middle := rest.take (rest.length - 3)
      if ¬ hasGlobChars middle then
        let mid := lowerStr middle
        ⟨.CONTAINS, '/' :: mid ++ ['/'], '/' :: mid⟩
      else ⟨.GLOB, lowerStr pattern, []⟩
    else if "*".toList.isPrefixOf rest ∧ ¬ hasGlobChars (rest.drop 1) then
      ⟨.ENDSWITH, lowerStr (rest.drop 1), []⟩
    else if "*".toList.isSuffixOf rest ∧ ¬ hasGlobChars (rest.take (rest.length - 1)) then
      ⟨.STARTSWITH, lowerStr (rest.take (rest.length - 1)), []⟩
    else if ¬ hasGlobChars rest then
      ⟨.EXACT, lowerStr rest, []⟩
    else ⟨.GLOB, lowerStr pattern, []⟩

/-- The `Char` written `\x7b` (Python's brace-alternation opener). -/
def lbrace : Char := Char.ofNat 123

/-- The `Char` written `\x7d`. -/
def rbrace : Char := Char.ofNat 125

/-- Python `"".join(...).split(",")` behaviour on code-point lists:
splitting on every comma, `[] ↦ [[]]`. -/
def splitComma : Str → List Str
  | [] => [[]]
  | c :: rest =>
    if c = ',' then [] :: splitComma rest
    else
      match splitComma rest with
      | [] => [[c]]
      | h :: t => (c :: h) :: t

/-- `_expand_braces` (patterns.py:64-75) with explicit recursion fuel.  Each
recursive call removes at least an opening and a closing brace, so the input
length is always sufficient fuel (`expandBracesF_fuel` below). -/
def expandBracesF : Nat → Str → List Str
  | 0, pattern => [pattern]
  | fuel + 1, pattern =>
    match pattern.findIdx? (· = lbrace) with
    | none => [pattern]
    | some start =>
      let rest := pattern.drop (start + 1)
      match rest.findIdx? (· = rbrace) with
      | none => [pattern]
      | some endRel =>
        let choices := splitComma (rest.take endRel)
        let pre := pattern.take start
        let suf := rest.drop (endRel + 1)
        choices.flatMap (fun choice => expandBracesF fuel (pre ++ choice ++ suf))

/-- `_expand_braces` (patterns.py:64-75). -/
def expandBraces (pattern : Str) : List Str := expandBracesF pattern.length pattern

/-- A rule tagged with its (dynamically typed) `apply_to`; `_TaggedRule`
(patterns.py:110-113). -/
structure TaggedRule where
  rule : PatternRule
  apply_to : ApplyToVal
deriving DecidableEq, Repr

/-- `CompiledRule` (patterns.py:78-82). -/
structure CompiledRule where
  rule : PatternRule
  matchers : List Matcher
  apply_to : ApplyToVal
deriving DecidableEq, Repr

/-- `compile_rule` (patterns.py:85-88). -/
def compile_rule (rule : PatternRule) : CompiledRule :=
  ⟨rule, (expandBraces rule.pattern).map classify, rule.apply_to⟩

-- -- fnmatch: the Python standard library shell-glob matcher used by the
-- `_GLOB` fallback (`_match_pattern_slow`).

/-- Membership of a character in an fnmatch `[...]` class body
(with `a-b` ranges; a `-` at the end is literal). -/
def classMatch : Str → Char → Bool
  | [], _ => false
  | a :: '-' :: b :: rest, c => (a ≤ c && c ≤ b) || classMatch rest c
  | a :: rest, c => (a == c) || classMatch rest c

/-- Locate the closing `]` of an fnmatch class body.  The input is the
pattern right after `[` (and after an optional `!`); a `]` in the first
position is part of the body, as in Python `fnmatch.translate`.  Returns
(class body, rest after the closing bracket), or `none` when there is no
closing bracket (then `[` is treated as a literal). -/
def closeSplit : Str → Option (Str × Str)
  | ']' :: rest2 =>
    (match rest2.findIdx? (· = ']') with
     | none => none
     | some i => some (']' :: rest2.take i, rest2.drop (i + 1)))
  | l =>
    (match l.findIdx? (· = ']') with
     | none => none
     | some i => some (l.take i, l.drop (i + 1)))

/-- Parse an fnmatch character class (input: the pattern after `[`):
(negated, class body, rest after `]`). -/
def classSplit : Str → Option (Bool × Str × Str)
  | '!' :: rest => (closeSplit rest).map (fun pr => (true, pr.1, pr.2))
  | l => (closeSplit l).map (fun pr => (false, pr.1, pr.2))

theorem findIdx?_lt_length {p : α → Bool} {l : List α} {i : Nat}
    (h : l.findIdx? p = some i) : i < l.length :=
  (List.findIdx?_eq_some_iff_findIdx_eq.1 h).1

theorem closeSplit_length {l : Str} {ins r : Str}
    (h : closeSplit l = some (ins, r)) : r.length < l.length := by
  unfold closeSplit at h
  split at h
  · rename_i rest2
    split at h
    · exact absurd h (by simp)
    · rename_i i hfi
      have := findIdx?_lt_length hfi
      simp only [Option.some.injEq, Prod.mk.injEq] at h
      rcases h with ⟨-, hr⟩
      subst hr
      simp only [List.length_drop, List.length_cons]
      omega
  · split at h
    · exact absurd h (by simp)
    · rename_i i hfi
      have := findIdx?_lt_length hfi
      simp only [Option.some.injEq, Prod.mk.injEq] at h
      rcases h with ⟨-, hr⟩
      subst hr
      simp only [List.length_drop]
      omega

theorem classSplit_length {l : Str} {n : Bool} {ins r : Str}
    (h : classSplit l = some (n, ins, r)) : r.length < l.length := by
  unfold classSplit at h
  split at h
  · rename_i rest
    cases hcs : closeSplit rest with
    | none => rw [hcs] at h; simp at h
    | some pr =>
      rw [hcs] at h
      simp only [Option.map, Option.some.injEq, Prod.mk.injEq] at h
      rcases h with ⟨-, -, hr⟩
      have := @closeSplit_length rest pr.1 pr.2 (by rw [hcs])
      subst hr
      simp only [List.length_cons]
      omega
  · cases hcs : closeSplit l with
    | none => rw [hcs] at h; simp at h
    | some pr =>
      rw [hcs] at h
      simp only [Option.map, Option.some.injEq, Prod.mk.injEq] at h
      rcases h with ⟨-, -, hr⟩
      have := @closeSplit_length l pr.1 pr.2 (by rw [hcs])
      subst hr
      omega

/-- The Python-stdlib `fnmatch.fnmatch` core on code-point lists
(`fnmatchL pat text`): `*` matches any run, `?` one character, `[...]` a
character class, everything else literally; the whole text must match.  On
POSIX `fnmatch` does no case normalization, which is how the repository uses
it (it pre-lowercases both sides). -/
def fnmatchL : Str → Str → Bool
  | [], [] => true
  | [], _ :: _ => false
  | '*' :: ps, t =>
    fnmatchL ps t ||
      (match t with
       | [] => false
       | _ :: ts => fnmatchL ('*' :: ps) ts)
  | '?' :: ps, t =>
    (match t with
     | [] => false
     | _ :: ts => fnmatchL ps ts)
  | '[' :: ps, t =>
    (match hcs : classSplit ps with
     | none =>
       (match t with
        | [] => false
        | c :: ts => ('[' == c) && fnmatchL ps ts)
     | some (neg, ins, rest) =>
       (match t with
        | [] => false
        | c :: ts => (neg != classMatch ins c) && fnmatchL rest ts))
  | p :: ps, t =>
    (match t with
     | [] => false
     | c :: ts => (p == c) && fnmatchL ps ts)
termination_by pat t => 2 * pat.length + t.length
decreasing_by
  all_goals simp_wf
  all_goals try omega
  all_goals have h9 := classSplit_length hcs
  all_goals omega

/-- `fnmatch.fnmatch(name, pattern)`. -/
def fnmatch (nm : Str) (pat : Str) : Bool := fnmatchL pat nm

/-- `_match_pattern_slow` (patterns.py:91-99). -/
def matchPatternSlow (pattern npath basename : Str) : Bool :=
  ("/**".toList.isSuffixOf pattern &&
      fnmatch npath (pattern.take (pattern.length - 3))) ||
    fnmatch npath pattern || fnmatch basename pattern

/-- `CompiledRuleSet` (patterns.py:138-168).  Python dicts are embedded as
association lists in key-insertion order (`setdefault` appends a fresh key at
the end, `get` looks a key up); the `AhoCorasick | None` automata are
embedded as their key/value lists, with `None ≃ []` (an automaton holding no
words yields no hits, so the `is not None` guards are behaviourally the
same). -/
structure CompiledRuleSet where
  exact_both : List (Str × List TaggedRule) := []
  exact_file : List (Str × List TaggedRule) := []
  exact_dir : List (Str × List TaggedRule) := []
  ac_both : List (Str × List (TaggedRule × Bool)) := []
  ac_file : List (Str × List (TaggedRule × Bool)) := []
  ac_dir : List (Str × List (TaggedRule × Bool)) := []
  endswith_both : List (Str × TaggedRule) := []
  endswith_file : List (Str × TaggedRule) := []
  endswith_dir : List (Str × TaggedRule) := []
  startswith_both : List (Str × TaggedRule) := []
  startswith_file : List (Str × TaggedRule) := []
  startswith_dir : List (Str × TaggedRule) := []
  glob_both : List (Str × TaggedRule) := []
  glob_file : List (Str × TaggedRule) := []
  glob_dir : List (Str × TaggedRule) := []
  additional : List (Str × TaggedRule) := []
deriving Repr

/-- Python `dict.get`: look a key up in an insertion-ordered dict. -/
def dictGet (d : List (Str × α)) (key : Str) : Option α :=
  match d.find? (fun kv => kv.1 == key) with
  | some kv => some kv.2
  | none => none

/-- Python `dict.setdefault(key, []).append(v)` on an insertion-ordered
dict of lists. -/
def dictAppend (d : List (Str × List α)) (key : Str) (v : α) :
    List (Str × List α) :=
  if d.any (fun kv => kv.1 == key) then
    d.map (fun kv => if kv.1 == key then (kv.1, kv.2 ++ [v]) else kv)
  else d ++ [(key, [v])]

/-- `_build_ac` (patterns.py:116-135): collect `val ↦ (rule, false)` and
`alt ↦ (rule, true)` — the boolean being `end_only` — into the word dict of
the substring automaton. -/
def build_ac (entries : List (Str × Str × TaggedRule)) :
    List (Str × List (TaggedRule × Bool)) :=
  entries.foldl
    (fun acc e => dictAppend (dictAppend acc e.1 (e.2.2, false)) e.2.1 (e.2.2, true))
    []

/-- `_add_matcher` (patterns.py:213-238): route a non-CONTAINS matcher into
the dispatch block selected by `apply_to == "both" / "file" / else`. -/
def _add_matcher (rs : CompiledRuleSet) (m : Matcher) (tagged : TaggedRule)
    (apply_to : ApplyToVal) : CompiledRuleSet :=
  match m.kind with
  | .EXACT =>
    if apply_to.eqStr "both".toList then
      { rs with exact_both := dictAppend rs.exact_both m.value tagged }
    else if apply_to.eqStr "file".toList then
      { rs with exact_file := dictAppend rs.exact_file m.value tagged }
    else
      { rs with exact_dir := dictAppend rs.exact_dir m.value tagged }
  | .ENDSWITH =>
    if apply_to.eqStr "both".toList then
      { rs with endswith_both := rs.endswith_both ++ [(m.value, tagged)] }
    else if apply_to.eqStr "file".toList then
      { rs with endswith_file := rs.endswith_file ++ [(m.value, tagged)] }
    else
      { rs with endswith_dir := rs.endswith_dir ++ [(m.value, tagged)] }
  | .STARTSWITH =>
    if apply_to.eqStr "both".toList then
      { rs with startswith_both := rs.startswith_both ++ [(m.value, tagged)] }
    else if apply_to.eqStr "file".toList then
      { rs with startswith_file := rs.startswith_file ++ [(m.value, tagged)] }
    else
      { rs with startswith_dir := rs.startswith_dir ++ [(m.value, tagged)] }
  | _ =>
    if apply_to.eqStr "both".toList then
      { rs with glob_both := rs.glob_both ++ [(m.value, tagged)] }
    else if apply_to.eqStr "file".toList then
      { rs with glob_file := rs.glob_file ++ [(m.value, tagged)] }
    else
      { rs with glob_dir := rs.glob_dir ++ [(m.value, tagged)] }

/-- One rule's contribution inside `compile_ruleset`'s main loop
(patterns.py:189-199): CONTAINS matchers are collected into the pending
`(cb, cf, cd)` entry lists, everything else goes through `_add_matcher`. -/
def compileStep (acc : CompiledRuleSet × List (Str × Str × TaggedRule)
      × List (Str × Str × TaggedRule) × List (Str × Str × TaggedRule))
    (rule : PatternRule) :
    CompiledRuleSet × List (Str × Str × TaggedRule)
      × List (Str × Str × TaggedRule) × List (Str × Str × TaggedRule) :=
  let cr := compile_rule rule
  let tagged : TaggedRule := ⟨rule, cr.apply_to⟩
  cr.matchers.foldl
    (fun a m =>
      let rs := a.1
      let cb := a.2.1
      let cf := a.2.2.1
      let cd := a.2.2.2
      if m.kind == .CONTAINS then
        if cr.apply_to.eqStr "both".toList then
          (rs, cb ++ [(m.value, m.alt, tagged)], cf, cd)
        else if cr.apply_to.eqStr "file".toList then
          (rs, cb, cf ++ [(m.value, m.alt, tagged)], cd)
        else
          (rs, cb, cf, cd ++ [(m.value, m.alt, tagged)])
      else
        (_add_matcher rs m tagged cr.apply_to, cb, cf, cd))
    acc

/-- `compile_ruleset` (patterns.py:171-210).  `additional_paths or None`
passes `None` for an empty list; compiling `None` and `[]` install the same
(empty) `additional` block, so the embedding takes the list directly. -/
def compile_ruleset (category_rules : List (List PatternRule))
    (additional_paths : List (Str × PatternRule)) : CompiledRuleSet :=
  let acc :=
    category_rules.foldl (fun a rules => rules.foldl compileStep a)
      ({ }, [], [], [])
  let rs := acc.1
  let rs := { rs with
    additional :=
      additional_paths.map
        (fun (bp : Str × PatternRule) => (bp.1, TaggedRule.mk bp.2 bp.2.apply_to)) }
  { rs with
    ac_both := build_ac acc.2.1
    ac_file := build_ac acc.2.2.1
    ac_dir := build_ac acc.2.2.2 }

/-- Hits of the substring automaton on `s`.  Modelled from the spec:
`dux._matcher.AhoCorasick` is not under `src/`; spec §4.2 calls it "a
multi-pattern substring matcher (conceptually Aho–Corasick)" whose automaton
"is traversed once per node".  `iter` reports, for each end position of `s`
in increasing order, the stored keys that end there together with their
stored values (the keys built by `_build_ac` are never empty).  No claim
depends on the order of distinct keys ending at the same position. -/
def acIter (words : List (Str × α)) (s : Str) : List (Nat × α) :=
  (List.range s.length).flatMap (fun e =>
    (words.filter (fun kv => kv.1.isSuffixOf (s.take (e + 1)))).map
      (fun kv => (e, kv.2)))

/-- The running state of `match_all`: the result list and the set of
category values already matched. -/
structure MatchState where
  matched : List PatternRule
  seen : List Str
deriving DecidableEq, Repr

/-- `_try` (patterns.py:263-267): record the rule unless its category value
was already matched. -/
def tryRule (st : MatchState) (tr : TaggedRule) : MatchState :=
  if st.seen.contains tr.rule.category.value then st
  else ⟨st.matched ++ [tr.rule], st.seen ++ [tr.rule.category.value]⟩

/-- `match_all` (patterns.py:241-329), phase by phase: EXACT dict lookups,
CONTAINS automata, ENDSWITH, STARTSWITH, GLOB fallback, additional paths.
In each phase the `_both` block is consulted before the kind-specific
(`_dir` when `is_dir` else `_file`) block. -/
def match_all (rs : CompiledRuleSet) (lpath lbase : Str) (is_dir : Bool)
    (raw_path : Str) : List PatternRule :=
  let st : MatchState := ⟨[], []⟩
  let st := (match dictGet rs.exact_both lbase with
             | none => st
             | some hits => hits.foldl tryRule st)
  let st := (match dictGet (if is_dir then rs.exact_dir else rs.exact_file) lbase with
             | none => st
             | some hits => hits.foldl tryRule st)
  let lpathEnd : Int := (lpath.length : Int) - 1
  let acStep := fun (st : MatchState) (words : List (Str × List (TaggedRule × Bool))) =>
    (acIter words lpath).foldl
      (fun s hit =>
        hit.2.foldl
          (fun s2 te =>
            if te.2 && ((hit.1 : Int) != lpathEnd) then s2 else tryRule s2 te.1)
          s)
      st
  let st := acStep st rs.ac_both
  let st := acStep st (if is_dir then rs.ac_dir else rs.ac_file)
  let st := rs.endswith_both.foldl
    (fun s p => if p.1.isSuffixOf lbase then tryRule s p.2 else s) st
  let st := (if is_dir then rs.endswith_dir else rs.endswith_file).foldl
    (fun s p => if p.1.isSuffixOf lbase then tryRule s p.2 else s) st
  let st := rs.startswith_both.foldl
    (fun s p => if p.1.isPrefixOf lbase then tryRule s p.2 else s) st
  let st := (if is_dir then rs.startswith_dir else rs.startswith_file).foldl
    (fun s p => if p.1.isPrefixOf lbase then tryRule s p.2 else s) st
  let st := rs.glob_both.foldl
    (fun s p => if matchPatternSlow p.1 lpath lbase then tryRule s p.2 else s) st
  let st := (if is_dir then rs.glob_dir else rs.glob_file).foldl
    (fun s p => if matchPatternSlow p.1 lpath lbase then tryRule s p.2 else s) st
  let st := rs.additional.foldl
    (fun s bt =>
      if bt.2.apply_to.eqStr "file".toList && is_dir then s
      else if bt.2.apply_to.eqStr "dir".toList && !is_dir then s
      else if raw_path == bt.1 || (bt.1 ++ ['/']).isPrefixOf raw_path then
        tryRule s bt.2
      else s)
    st
  st.matched

-- ---------------------------------------------------------------------------
-- The probe order of `match_all` and its first-match-per-category semantics
-- ---------------------------------------------------------------------------

/-- The EXACT-phase hits of `match_all`, in probe order. -/
def exactHits (rs : CompiledRuleSet) (lbase : Str) (is_dir : Bool) :
    List TaggedRule :=
  (match dictGet rs.exact_both lbase with
   | none => []
   | some hits => hits) ++
  (match dictGet (if is_dir then rs.exact_dir else rs.exact_file) lbase with
   | none => []
   | some hits => hits)

/-- The CONTAINS-phase hits of one automaton, in probe order: automaton hits
by end position, dropping `end_only` entries that do not end at the last
position of `lpath`. -/
def acHits (words : List (Str × List (TaggedRule × Bool))) (lpath : Str) :
    List TaggedRule :=
  let lpathEnd : Int := (lpath.length : Int) - 1
  (acIter words lpath).flatMap
    (fun hit =>
      (hit.2.filter (fun te => !(te.2 && ((hit.1 : Int) != lpathEnd)))).map
        (fun te => te.1))

/-- The hits of one suffix/prefix/glob list, in declaration order. -/
def listHits (cond : Str → Bool) (l : List (Str × TaggedRule)) :
    List TaggedRule :=
  (l.filter (fun p => cond p.1)).map (fun p => p.2)

/-- The additional-path hits, in declaration order. -/
def additionalHits (l : List (Str × TaggedRule)) (is_dir : Bool)
    (raw_path : Str) : List TaggedRule :=
  (l.filter
      (fun bt =>
        !(bt.2.apply_to.eqStr "file".toList && is_dir) &&
        !(bt.2.apply_to.eqStr "dir".toList && !is_dir) &&
        (raw_path == bt.1 || (bt.1 ++ ['/']).isPrefixOf raw_path))).map
    (fun bt => bt.2)

/-- Every rule probe `match_all` attempts that matches the input, in probe
order: `Exact → Contains → EndsWith → StartsWith → Glob → Additional`, the
`_both` block before the kind-specific block inside each phase. -/
def probeList (rs : CompiledRuleSet) (lpath lbase : Str) (is_dir : Bool)
    (raw_path : Str) : List TaggedRule :=
  exactHits rs lbase is_dir ++
  acHits rs.ac_both lpath ++
  acHits (if is_dir then rs.ac_dir else rs.ac_file) lpath ++
  listHits (fun v => v.isSuffixOf lbase) rs.endswith_both ++
  listHits (fun v => v.isSuffixOf lbase)
    (if is_dir then rs.endswith_dir else rs.endswith_file) ++
  listHits (fun v => v.isPrefixOf lbase) rs.startswith_both ++
  listHits (fun v => v.isPrefixOf lbase)
    (if is_dir then rs.startswith_dir else rs.startswith_file) ++
  listHits (fun v => matchPatternSlow v lpath lbase) rs.glob_both ++
  listHits (fun v => matchPatternSlow v lpath lbase)
    (if is_dir then rs.glob_dir else rs.glob_file) ++
  additionalHits rs.additional is_dir raw_path

/-- First-match-per-category selection: keep each probed rule whose category
value has not been kept before. -/
def firstPerCategory (seen : List Str) : List TaggedRule → List PatternRule
  | [] => []
  | tr :: rest =>
    if seen.contains tr.rule.category.value then firstPerCategory seen rest
    else tr.rule :: firstPerCategory (seen ++ [tr.rule.category.value]) rest

/-- The seen-set after folding `tryRule` over a probe list. -/
def seenAfter (seen : List Str) : List TaggedRule → List Str
  | [] => seen
  | tr :: rest =>
    seenAfter
      (if seen.contains tr.rule.category.value then seen
       else seen ++ [tr.rule.category.value])
      rest

theorem foldl_tryRule (l : List TaggedRule) :
    ∀ st : MatchState,
      l.foldl tryRule st
        = ⟨st.matched ++ firstPerCategory st.seen l, seenAfter st.seen l⟩ := by
  induction l with
  | nil => intro st; simp [firstPerCategory, seenAfter]
  | cons tr rest ih =>
    intro st
    by_cases h : st.seen.contains tr.rule.category.value
    · rw [List.foldl_cons]
      have htry : tryRule st tr = st := by
        simp only [tryRule, if_pos h]
      have h1 : firstPerCategory st.seen (tr :: rest)
          = firstPerCategory st.seen rest := by
        simp only [firstPerCategory, if_pos h]
      have h2 : seenAfter st.seen (tr :: rest) = seenAfter st.seen rest := by
        simp only [seenAfter, if_pos h]
      rw [htry, ih st, h1, h2]
    · rw [List.foldl_cons]
      have htry : tryRule st tr
          = ⟨st.matched ++ [tr.rule], st.seen ++ [tr.rule.category.value]⟩ := by
        simp only [tryRule, if_neg h]
      have h1 : firstPerCategory st.seen (tr :: rest)
          = tr.rule
              :: firstPerCategory (st.seen ++ [tr.rule.category.value]) rest := by
        simp only [firstPerCategory, if_neg h]
      have h2 : seenAfter st.seen (tr :: rest)
          = seenAfter (st.seen ++ [tr.rule.category.value]) rest := by
        simp only [seenAfter, if_neg h]
      rw [htry, ih, h1, h2]
      simp

theorem foldl_if_filter {β : Type} (cond : β → Bool) (f : β → TaggedRule)
    (l : List β) :
    ∀ st : MatchState,
      l.foldl (fun s x => if cond x then tryRule s (f x) else s) st
        = ((l.filter cond).map f).foldl tryRule st := by
  induction l with
  | nil => intro st; simp
  | cons x xs ih =>
    intro st
    by_cases h : cond x
    · simp only [List.foldl_cons, if_pos h, List.filter_cons_of_pos h,
        List.map_cons, List.foldl_cons]
      exact ih _
    · simp only [List.foldl_cons, if_neg h, List.filter_cons_of_neg h]
      exact ih st

theorem foldl_ifnot_filter (cond : TaggedRule × Bool → Bool)
    (l : List (TaggedRule × Bool)) :
    ∀ st : MatchState,
      l.foldl (fun s x => if cond x then s else tryRule s x.1) st
        = ((l.filter (fun x => !cond x)).map (fun x => x.1)).foldl tryRule st := by
  induction l with
  | nil => intro st; simp
  | cons x xs ih =>
    intro st
    by_cases h : cond x
    · simp only [List.foldl_cons, if_pos h, List.filter_cons, h,
        Bool.not_true, List.foldl_cons]
      exact ih st
    · simp only [List.foldl_cons, if_neg h, List.filter_cons,
        Bool.not_eq_true' .. ▸ rfl]
      have : (!cond x) = true := by simp [h]
      simp only [this, List.map_cons, List.foldl_cons]
      exact ih _

theorem foldl_flatMap_tryRule {β : Type} (g : β → List TaggedRule)
    (l : List β) :
    ∀ st : MatchState,
      (l.flatMap g).foldl tryRule st
        = l.foldl (fun s x => (g x).foldl tryRule s) st := by
  induction l with
  | nil => intro st; simp
  | cons x xs ih =>
    intro st
    simp only [List.flatMap_cons, List.foldl_append, List.foldl_cons]
    exact ih _

theorem match_all_eq_foldl (rs : CompiledRuleSet) (lpath lbase : Str)
    (is_dir : Bool) (raw_path : Str) :
    match_all rs lpath lbase is_dir raw_path
      = ((probeList rs lpath lbase is_dir raw_path).foldl tryRule ⟨[], []⟩).matched := by
  unfold match_all probeList
  simp only [List.foldl_append]
  congr 1
  -- peel the phases from the back: additional, glob, startswith, endswith, ac, exact
  have addl : ∀ (l : List (Str × TaggedRule)) (st : MatchState),
      l.foldl
        (fun s bt =>
          if bt.2.apply_to.eqStr "file".toList && is_dir then s
          else if bt.2.apply_to.eqStr "dir".toList && !is_dir then s
          else if raw_path == bt.1 || (bt.1 ++ ['/']).isPrefixOf raw_path then
            tryRule s bt.2
          else s)
        st
        = (additionalHits l is_dir raw_path).foldl tryRule st := by
    intro l
    induction l with
    | nil => intro st; simp [additionalHits]
    | cons bt rest ih =>
      intro st
      simp only [List.foldl_cons, additionalHits, List.filter_cons]
      by_cases h1 : bt.2.apply_to.eqStr "file".toList && is_dir
      · simp only [if_pos h1, h1]
        simpa [additionalHits] using ih st
      · simp only [if_neg h1]
        by_cases h2 : bt.2.apply_to.eqStr "dir".toList && !is_dir
        · simp only [if_pos h2, h1, h2]
          simpa [additionalHits] using ih st
        · simp only [if_neg h2]
          by_cases h3 : raw_path == bt.1 || (bt.1 ++ ['/']).isPrefixOf raw_path
          · simp only [if_pos h3, h1, h2, h3]
            simpa [additionalHits] using ih (tryRule st bt.2)
          · simp only [if_neg h3, h1, h2, h3]
            simpa [additionalHits] using ih st
  have globs : ∀ (l : List (Str × TaggedRule)) (st : MatchState),
      l.foldl (fun s p => if matchPatternSlow p.1 lpath lbase then tryRule s p.2 else s) st
        = (listHits (fun v => matchPatternSlow v lpath lbase) l).foldl tryRule st := by
    intro l st
    exact foldl_if_filter (fun p => matchPatternSlow p.1 lpath lbase)
      (fun p => p.2) l st
  have ends : ∀ (l : List (Str × TaggedRule)) (st : MatchState),
      l.foldl (fun s p => if p.1.isSuffixOf lbase then tryRule s p.2 else s) st
        = (listHits (fun v => v.isSuffixOf lbase) l).foldl tryRule st := by
    intro l st
    exact foldl_if_filter (fun p => p.1.isSuffixOf lbase) (fun p => p.2) l st
  have starts : ∀ (l : List (Str × TaggedRule)) (st : MatchState),
      l.foldl (fun s p => if p.1.isPrefixOf lbase then tryRule s p.2 else s) st
        = (listHits (fun v => v.isPrefixOf lbase) l).foldl tryRule st := by
    intro l st
    exact foldl_if_filter (fun p => p.1.isPrefixOf lbase) (fun p => p.2) l st
  have acs : ∀ (words : List (Str × List (TaggedRule × Bool))) (st : MatchState),
      (acIter words lpath).foldl
          (fun s hit =>
            hit.2.foldl
              (fun s2 te =>
                if te.2 && ((hit.1 : Int) != ((lpath.length : Int) - 1)) then s2
                else tryRule s2 te.1)
              s)
          st
        = (acHits words lpath).foldl tryRule st := by
    intro words st
    unfold acHits
    rw [foldl_flatMap_tryRule]
    have congrFold : ∀ (f g : MatchState → (Nat × List (TaggedRule × Bool)) → MatchState),
        (∀ a b, f a b = g a b) →
        ∀ (l : List (Nat × List (TaggedRule × Bool))) (init : MatchState),
          l.foldl f init = l.foldl g init := by
      intro f g hfg l
      induction l with
      | nil => intro init; rfl
      | cons x xs ih =>
        intro init
        simp only [List.foldl_cons, hfg]
        exact ih _
    refine congrFold _ _ (fun s hit => ?_) _ st
    exact foldl_ifnot_filter
      (fun te => te.2 && ((hit.1 : Int) != ((lpath.length : Int) - 1))) hit.2 s
  have exacts : ∀ (d : List (Str × List TaggedRule)) (st : MatchState),
      (match dictGet d lbase with
       | none => st
       | some hits => hits.foldl tryRule st)
        = ((match dictGet d lbase with
            | none => ([] : List TaggedRule)
            | some hits => hits).foldl tryRule st) := by
    intro d st
    cases dictGet d lbase <;> simp
  rw [addl, globs, globs, starts, starts, ends, ends, acs, acs]
  unfold exactHits
  rw [List.foldl_append, exacts, exacts]

theorem InsightCategory.value_inj :
    ∀ a b : InsightCategory, a.value = b.value → a = b := by
  intro a b h
  cases a <;> cases b <;> first
    | rfl
    | exact absurd h (by decide)

theorem firstPerCategory_filter_seen (c : InsightCategory) :
    ∀ (l : List TaggedRule) (seen : List Str), c.value ∈ seen →
      (firstPerCategory seen l).filter (fun r => r.category == c) = [] := by
  intro l
  induction l with
  | nil => intro seen h; rfl
  | cons tr rest ih =>
    intro seen h
    by_cases hc : seen.contains tr.rule.category.value
    · simp only [firstPerCategory, if_pos hc]
      exact ih seen h
    · simp only [firstPerCategory, if_neg hc]
      have hne : ¬(tr.rule.category = c) := by
        intro hEq
        subst hEq
        exact hc (List.elem_iff.2 h)
      rw [List.filter_cons_of_neg (by simp [hne])]
      exact ih _ (List.mem_append_left _ h)

theorem firstPerCategory_count (c : InsightCategory) :
    ∀ (l : List TaggedRule) (seen : List Str),
      ((firstPerCategory seen l).filter (fun r => r.category == c)).length ≤ 1 := by
  intro l
  induction l with
  | nil => intro seen; simp [firstPerCategory]
  | cons tr rest ih =>
    intro seen
    by_cases hc : seen.contains tr.rule.category.value
    · simp only [firstPerCategory, if_pos hc]
      exact ih seen
    · simp only [firstPerCategory, if_neg hc]
      by_cases hceq : tr.rule.category = c
      · subst hceq
        rw [List.filter_cons_of_pos (by simp)]
        rw [firstPerCategory_filter_seen tr.rule.category rest
          (seen ++ [tr.rule.category.value]) (by simp)]
        simp
      · rw [List.filter_cons_of_neg (by simp [hceq])]
        exact ih _

theorem firstPerCategory_covers :
    ∀ (l : List TaggedRule) (seen : List Str) (tr : TaggedRule),
      tr ∈ l → tr.rule.category.value ∉ seen →
      ∃ r ∈ firstPerCategory seen l, r.category = tr.rule.category := by
  intro l
  induction l with
  | nil =>
    intro seen tr h
    cases h
  | cons hd rest ih =>
    intro seen tr hmem hnot
    by_cases hc : seen.contains hd.rule.category.value
    · simp only [firstPerCategory, if_pos hc]
      rcases List.mem_cons.1 hmem with rfl | hmem'
      · exact absurd (List.elem_iff.1 hc) hnot
      · exact ih seen tr hmem' hnot
    · simp only [firstPerCategory, if_neg hc]
      by_cases hcat : tr.rule.category = hd.rule.category
      · exact ⟨hd.rule, List.mem_cons_self _ _, hcat.symm⟩
      · rcases List.mem_cons.1 hmem with rfl | hmem'
        · exact absurd rfl hcat
        · have hnot' : tr.rule.category.value ∉ seen ++ [hd.rule.category.value] := by
            intro hin
            rcases List.mem_append.1 hin with hin | hin
            · exact hnot hin
            · rcases List.mem_singleton.1 hin with hv
              exact hcat (InsightCategory.value_inj _ _ hv)
          rcases ih _ tr hmem' hnot' with ⟨r, hr, hrc⟩
          exact ⟨r, List.mem_cons_of_mem _ hr, hrc⟩

/-- C2 (amended): `match_all` returns, across all categories, exactly the
first matching rule per category when the matching probes are tried in
`Exact → Contains → EndsWith → StartsWith → Glob → Additional` phase order,
where inside each phase the rules compiled into the `_both` block are probed
before those in the kind-specific block (each block in its own declaration
order, the Contains phase in the substring automaton's match order); at most
one rule per category is returned, and every category with any matching
probe is represented.  (The original claim's "within each phase in
declaration order" fails: see the counterexample.) -/
theorem match_all_first_per_category (rs : CompiledRuleSet) (lpath lbase : Str)
    (is_dir : Bool) (raw_path : Str) :
    match_all rs lpath lbase is_dir raw_path
        = firstPerCategory [] (probeList rs lpath lbase is_dir raw_path)
    ∧ (∀ c : InsightCategory,
        ((match_all rs lpath lbase is_dir raw_path).filter
            (fun r => r.category == c)).length ≤ 1)
    ∧ (∀ tr ∈ probeList rs lpath lbase is_dir raw_path,
        ∃ r ∈ match_all rs lpath lbase is_dir raw_path,
          r.category = tr.rule.category) := by
  have he : match_all rs lpath lbase is_dir raw_path
      = firstPerCategory [] (probeList rs lpath lbase is_dir raw_path) := by
    rw [match_all_eq_foldl, foldl_tryRule]
    simp
  refine ⟨he, ?_, ?_⟩
  · intro c
    rw [he]
    exact firstPerCategory_count c _ []
  · intro tr htr
    rw [he]
    exact firstPerCategory_covers _ [] tr htr (List.not_mem_nil _)

/-- First declared rule for the C2 counterexample: EndsWith on `.log`,
`apply_to = "dir"`, category Temp. -/
def ruleC2A : PatternRule :=
  ⟨"A".toList, "**/*.log".toList, .temp, .ofStr "dir".toList, false⟩

/-- Second declared rule for the C2 counterexample: EndsWith on `og`,
`apply_to = "both"`, same category Temp. -/
def ruleC2B : PatternRule :=
  ⟨"B".toList, "**/*og".toList, .temp, .ofStr "both".toList, false⟩

/-- C2 counterexample: both Temp rules sit in the EndsWith phase and both
match the directory basename `x.log`, with `A` declared before `B`; the
claim's "within each phase in declaration order" demands `A`, but the code
probes the `endswith_both` block before `endswith_dir` and returns `B`. -/
theorem match_all_order_counterexample :
    match_all (compile_ruleset [[ruleC2A, ruleC2B]] [])
        "/x.log".toList "x.log".toList true "/x.log".toList = [ruleC2B]
      ∧ List.isSuffixOf ".log".toList "x.log".toList = true
      ∧ ruleC2A ≠ ruleC2B := by decide

/-- The `apply_to = ApplyTo.FILE` rule showing the C6 divergence. -/
def ruleC6 : PatternRule :=
  ⟨"file-only".toList, "**/foo".toList, .temp, .ofEnum .FILE, false⟩

/-- C6 is violated by the code: `dux.models.enums.ApplyTo` is an `IntFlag`,
and `dux.services.patterns` routes rules by comparing `apply_to` against the
strings `"both"` / `"file"`; an `IntFlag` member never equals a `str` in
Python, so every enum-typed rule falls through to the directory-only block.
A rule with `apply_to = ApplyTo.FILE` is hence reported for a directory whose
basename matches — and never for a file.  The repository's own test
(`tests/services/test_patterns.py::test_apply_to_file_does_not_match_dirs`)
asserts the claim's behaviour and fails on this code. -/
theorem match_all_apply_to_file_bug :
    match_all (compile_ruleset [[ruleC6]] [])
        "/a/foo".toList "foo".toList true "/a/foo".toList = [ruleC6]
      ∧ match_all (compile_ruleset [[ruleC6]] [])
          "/a/foo".toList "foo".toList false "/a/foo".toList = [] := by decide

-- ---------------------------------------------------------------------------
-- `dux.models.insight` and `dux.services.insights`
-- ---------------------------------------------------------------------------

/-- `dux.models.insight.Insight`. -/
structure Insight where
  path : Str
  size_bytes : Nat
  category : InsightCategory
  summary : Str
  kind : NodeKind
  disk_usage : Nat
deriving DecidableEq, Repr

/-- `dux.models.insight.InsightBundle`.  The per-category dicts are embedded
as association lists in key-insertion order; `category_paths` holds Python
sets, embedded as duplicate-free lists in insertion order (no claim depends
on set iteration order). -/
structure InsightBundle where
  insights : List Insight
  category_counts : List (InsightCategory × Nat)
  category_size_bytes : List (InsightCategory × Nat)
  category_disk_usage : List (InsightCategory × Nat)
  category_paths : List (InsightCategory × List Str)
deriving DecidableEq, Repr

/-- `_HeapEntry = tuple[int, str, Insight]` (insights.py:14). -/
abbrev HeapEntry := Nat × Str × Insight

/-- Python tuple `<` on heap entries: compare `disk_usage`, then `path`.
Two distinct live entries never tie on both (a same-path re-push requires a
strictly larger `disk_usage`), so the third component — whose comparison
would raise `TypeError` in Python — is never consulted. -/
def entryLt (a b : HeapEntry) : Bool :=
  decide (a.1 < b.1) || (a.1 == b.1 && decide (a.2.1 < b.2.1))

/-- CPython `heapq._siftdown(heap, startpos, pos)` with the moved item passed
explicitly (`newitem = heap[pos]` at entry) and fuel `pos + 1` (the position
strictly decreases).  All reads are in bounds in every reachable call — the
`getD` default, chosen as `newitem`, is never produced. -/
def siftdownF (newitem : HeapEntry) :
    Nat → List HeapEntry → Nat → Nat → List HeapEntry
  | 0, heap, _, pos => heap.set pos newitem
  | fuel + 1, heap, startpos, pos =>
    if startpos < pos then
      let parentpos := (pos - 1) / 2
      let parent := heap.getD parentpos newitem
      if entryLt newitem parent then
        siftdownF newitem fuel (heap.set pos parent) startpos parentpos
      else heap.set pos newitem
    else heap.set pos newitem

/-- CPython `heapq.heappush`. -/
def heappush (heap : List HeapEntry) (item : HeapEntry) : List HeapEntry :=
  let h := heap ++ [item]
  siftdownF item h.length h 0 (h.length - 1)

/-- The child-promotion loop of CPython `heapq._siftup`: follow the smaller
child downward, copying it up, until a leaf; returns the heap and the final
position.  Fuel `heap.length` bounds the strictly increasing child position.
`d` is the `getD` default for the (always in-bounds) child reads. -/
def siftupF (d : HeapEntry) :
    Nat → List HeapEntry → Nat → List HeapEntry × Nat
  | 0, heap, pos => (heap, pos)
  | fuel + 1, heap, pos =>
    let endpos := heap.length
    let childpos := 2 * pos + 1
    if childpos < endpos then
      let rightpos := childpos + 1
      let childpos :=
        if rightpos < endpos &&
            !(entryLt (heap.getD childpos d) (heap.getD rightpos d)) then
          rightpos
        else childpos
      siftupF d fuel (heap.set pos (heap.getD childpos d)) childpos
    else (heap, pos)

/-- CPython `heapq._siftup(heap, pos)` (with `newitem = heap[pos]` read at
entry): promote children, place `newitem` at the final position, then
restore the invariant with `_siftdown`. -/
def siftup (heap : List HeapEntry) (pos : Nat) (newitem : HeapEntry) :
    List HeapEntry :=
  let pr := siftupF newitem heap.length heap pos
  siftdownF newitem (pr.2 + 1) (pr.1.set pr.2 newitem) pos pr.2

/-- CPython `heapq.heapreplace`: overwrite the root and sift it down. -/
def heapreplace (heap : List HeapEntry) (item : HeapEntry) : List HeapEntry :=
  siftup (heap.set 0 item) 0 item

/-- Python dict assignment `d[key] = v` on an insertion-ordered dict. -/
def dictSet (d : List (Str × Nat)) (key : Str) (v : Nat) : List (Str × Nat) :=
  if d.any (fun kv => kv.1 == key) then
    d.map (fun kv => if kv.1 == key then (kv.1, v) else kv)
  else d ++ [(key, v)]

/-- `_heap_push` (insights.py:17-37): bounded min-heap push with per-path
dedup.  When `max_size = 0` and the heap minimum is read, Python would raise
`IndexError`; the embedding's `getD` default makes the eviction test false
instead (the configuration layer enforces `max_insights_per_category ≥ 10`,
so the case is unreachable in the application). -/
def heapPushDedup (heap : List HeapEntry) (seen : List (Str × Nat))
    (insight : Insight) (max_size : Nat) :
    List HeapEntry × List (Str × Nat) :=
  let entry : HeapEntry := (insight.disk_usage, insight.path, insight)
  let push := fun (_ : Unit) =>
    let seen' := dictSet seen insight.path insight.disk_usage
    if heap.length < max_size then (heappush heap entry, seen')
    else if decide ((heap.getD 0 entry).1 < insight.disk_usage) then
      (heapreplace heap entry, seen')
    else (heap, seen')
  match dictGet seen insight.path with
  | some prev => if insight.disk_usage ≤ prev then (heap, seen) else push ()
  | none => push ()

/-- A value per `InsightCategory` (the `{cat: ... for cat in
InsightCategory}` dict comprehensions of insights.py:72-78). -/
structure PerCat (α : Type) where
  temp : α
  cache : α
  build_artifact : α
deriving DecidableEq, Repr

def PerCat.get (p : PerCat α) : InsightCategory → α
  | .temp => p.temp
  | .cache => p.cache
  | .build_artifact => p.build_artifact

def PerCat.update (p : PerCat α) (c : InsightCategory) (v : α) : PerCat α :=
  match c with
  | .temp => { p with temp := v }
  | .cache => { p with cache := v }
  | .build_artifact => { p with build_artifact := v }

/-- Python `d[cat] = d.get(cat, 0) + k` on an insertion-ordered dict. -/
def catBump (d : List (InsightCategory × Nat)) (c : InsightCategory) (k : Nat) :
    List (InsightCategory × Nat) :=
  if d.any (fun kv => kv.1 == c) then
    d.map (fun kv => if kv.1 == c then (kv.1, kv.2 + k) else kv)
  else d ++ [(c, k)]

/-- Python `set.add` embedded on a duplicate-free list. -/
def setAdd (l : List Str) (x : Str) : List Str :=
  if l.contains x then l else l ++ [x]

/-- The mutable state of `generate_insights`'s traversal: per-category heaps
and dedup dicts, plus the exact aggregates. -/
structure EngineState where
  heaps : PerCat (List HeapEntry)
  seen : PerCat (List (Str × Nat))
  category_counts : List (InsightCategory × Nat)
  category_disk_usage : List (InsightCategory × Nat)
  category_paths : PerCat (List Str)
deriving DecidableEq, Repr

def initEngineState : EngineState :=
  ⟨⟨[], [], []⟩, ⟨[], [], []⟩, [], [], ⟨[], [], []⟩⟩

/-- `_record` (insights.py:80-85): bump the exact aggregates and push into
the category's bounded heap. -/
def recordInsight (max_size : Nat) (st : EngineState) (i : Insight) :
    EngineState :=
  let pr := heapPushDedup (st.heaps.get i.category) (st.seen.get i.category) i
    max_size
  { heaps := st.heaps.update i.category pr.1
    seen := st.seen.update i.category pr.2
    category_counts := catBump st.category_counts i.category 1
    category_disk_usage := catBump st.category_disk_usage i.category i.disk_usage
    category_paths := st.category_paths.update i.category
      (setAdd (st.category_paths.get i.category) i.path) }

/-- `_insight_from_rule` (insights.py:148-156). -/
def _insight_from_rule (node : ScanNode) (rule : PatternRule) : Insight :=
  ⟨node.path, node.size_bytes, rule.category, rule.name, node.kind,
    node.disk_usage⟩

/-- The rules matched for one node (insights.py:105-110): lowercase the path
and basename once and call `match_all`. -/
def nodeRules (rs : CompiledRuleSet) (node : ScanNode) : List PatternRule :=
  match_all rs (lowerStr node.path) (lowerStr node.name) node.is_dir node.path

/-- `rule.category.value in {TEMP.value, CACHE.value}` (insights.py:90, 116). -/
def isTempCacheRule (r : PatternRule) : Bool :=
  r.category.value == "temp".toList || r.category.value == "cache".toList

/-- Whether any matched rule flags the temp/cache descent skip. -/
def anyTempCache (ms : List PatternRule) : Bool := ms.any isTempCacheRule

/-- Whether any matched rule has `stop_recursion` (then `build_rule` ends up
not `None`, insights.py:118-122). -/
def anyStop (ms : List PatternRule) : Bool :=
  ms.any (fun r => r.stop_recursion)

mutual

/-- Total weight of a tree: its number of nodes. -/
def ScanNode.weight : ScanNode → Nat
  | .mk _ _ _ _ _ cs => 1 + weightL cs

def weightL : List ScanNode → Nat
  | [] => 0
  | c :: cs => c.weight + weightL cs

end

/-- Total weight of the traversal stack. -/
def stackWeight (stack : List (ScanNode × Bool)) : Nat :=
  (stack.map (fun p => p.1.weight)).sum

/-- The explicit-stack traversal of `generate_insights` (insights.py:92-125),
single worker, fuel-indexed.  The Python stack appends `reversed(children)`
and pops from the end; with the stack top at the head of the list the two
reversals cancel, so children are pushed in order.  Each step removes one
node from the stack and pushes only its children, so `stackWeight` fuel is
always sufficient (`traverseF_spec` below). -/
def traverseF (rs : CompiledRuleSet) (maxK : Nat) :
    Nat → EngineState → List (ScanNode × Bool) → EngineState
  | _, st, [] => st
  | 0, st, _ :: _ => st
  | fuel + 1, st, (node, inTempCache) :: rest =>
    if inTempCache then traverseF rs maxK fuel st rest
    else
      let ms := nodeRules rs node
      let st' := ms.foldl
        (fun s r => recordInsight maxK s (_insight_from_rule node r)) st
      if node.is_dir then
        if anyStop ms then traverseF rs maxK fuel st' rest
        else
          traverseF rs maxK fuel st'
            ((node.children.map (fun c => (c, anyTempCache ms))) ++ rest)
      else traverseF rs maxK fuel st' rest

mutual

/-- The sequence of insights `_record` receives for the subtree of one node
reached with a clear temp/cache flag, in record order: the node's own
matched-rule insights, then — only when the node is a directory, no matched
rule stops recursion, and no temp/cache rule matched — its children's. -/
def collectNode (rs : CompiledRuleSet) : ScanNode → List Insight
  | .mk p nm k sb du cs =>
    let node := ScanNode.mk p nm k sb du cs
    let ms := nodeRules rs node
    let ins := ms.map (_insight_from_rule node)
    if node.is_dir then
      if anyStop ms then ins
      else if anyTempCache ms then ins
      else ins ++ collectL rs cs
    else ins

def collectL (rs : CompiledRuleSet) : List ScanNode → List Insight
  | [] => []
  | c :: cs => collectNode rs c ++ collectL rs cs

end

mutual

/-- The nodes the traversal processes with a clear temp/cache flag (the ones
whose `match_all` result is consulted), in visit order. -/
def processedNode (rs : CompiledRuleSet) : ScanNode → List ScanNode
  | .mk p nm k sb du cs =>
    let node := ScanNode.mk p nm k sb du cs
    let ms := nodeRules rs node
    node ::
      (if node.is_dir && !anyStop ms && !anyTempCache ms then processedL rs cs
       else [])

def processedL (rs : CompiledRuleSet) : List ScanNode → List ScanNode
  | [] => []
  | c :: cs => processedNode rs c ++ processedL rs cs

end

/-- The insights recorded for a whole stack. -/
def stackCollect (rs : CompiledRuleSet) (stack : List (ScanNode × Bool)) :
    List Insight :=
  stack.flatMap (fun p => if p.2 then [] else collectNode rs p.1)

-- -- the public entry points of `dux.services.insights`

/-- The slice of `dux.config.schema.AppConfig` that `generate_insights`
reads (defaults from the dataclass). -/
structure AppConfig where
  additional_temp_paths : List Str := []
  additional_cache_paths : List Str := []
  temp_patterns : List PatternRule := []
  cache_patterns : List PatternRule := []
  build_artifact_patterns : List PatternRule := []
  max_insights_per_category : Nat := 1000
deriving Repr

/-- Modelled from the spec: `str(Path(raw_base).expanduser())` resolves `~`
against the process environment (spec §4.1 `expand_user(path) → absolute`);
on the already-absolute, forward-slash-normalized paths of spec §6 it is the
identity, which is how it is embedded. -/
def expandUserPath (s : Str) : Str := s

/-- Python `s.rstrip("/")`. -/
def rstripSlash (s : Str) : Str :=
  (s.reverse.dropWhile (fun c => c == '/')).reverse

/-- The `(base, rule)` pairs built for `additional_temp_paths` /
`additional_cache_paths` (insights.py:40-59). -/
def additionalPathRules (config : AppConfig) : List (Str × PatternRule) :=
  ([(InsightCategory.temp, config.additional_temp_paths),
    (InsightCategory.cache, config.additional_cache_paths)]).flatMap
    (fun pr =>
      pr.2.map (fun raw_base =>
        let base := rstripSlash (expandUserPath raw_base)
        (base,
          PatternRule.mk
            ("Additional ".toList ++ pr.1.value ++ " path".toList)
            base pr.1 (.ofStr "both".toList) false)))

/-- The compiled ruleset `generate_insights` builds (insights.py:61-69). -/
def configRuleset (config : AppConfig) : CompiledRuleSet :=
  compile_ruleset
    [config.temp_patterns, config.cache_patterns,
      config.build_artifact_patterns]
    (additionalPathRules config)

/-- The heap-merge phase of `generate_insights` (insights.py:127-136): per
category in declaration order, sort the heap array by usage descending
(stable on the array layout) and keep each insight whose path has not been
emitted yet — the `final_seen` set is shared across all categories. -/
def mergeHeaps (heaps : PerCat (List HeapEntry)) : List Insight :=
  (allCategories.foldl
    (fun (a : List Insight × List Str) cat =>
      (sortByDesc (fun (e : HeapEntry) => e.1) (heaps.get cat)).foldl
        (fun (a : List Insight × List Str) e =>
          if a.2.contains e.2.1 then a else (a.1 ++ [e.2.2], a.2 ++ [e.2.1]))
        a)
    ([], [])).1

/-- `generate_insights` (insights.py:39-145).  The returned bundle's
`category_size_bytes` is the dataclass default `{}`: the function never
populates it. -/
def generate_insights (root : ScanNode) (config : AppConfig) : InsightBundle :=
  let ruleset := configRuleset config
  let st := traverseF ruleset config.max_insights_per_category
    (ScanNode.weight root) initEngineState [(root, false)]
  { insights := sortByDesc Insight.disk_usage (mergeHeaps st.heaps)
    category_counts := st.category_counts
    category_size_bytes := []
    category_disk_usage := st.category_disk_usage
    category_paths :=
      [(InsightCategory.temp, st.category_paths.get .temp),
       (InsightCategory.cache, st.category_paths.get .cache),
       (InsightCategory.build_artifact, st.category_paths.get .build_artifact)] }

/-- `filter_insights` (insights.py:159-160). -/
def filter_insights (bundle : InsightBundle)
    (categories : List InsightCategory) : List Insight :=
  bundle.insights.filter (fun item => categories.contains item.category)

-- ---------------------------------------------------------------------------
-- Characterizing the traversal: `traverseF` folds `_record` over the
-- pre-order record sequence `collectNode`.
-- ---------------------------------------------------------------------------

theorem weight_def (t : ScanNode) : t.weight = 1 + weightL t.children := by
  cases t; rfl

theorem weight_pos (t : ScanNode) : 1 ≤ t.weight := by
  rw [weight_def]; omega

theorem stackWeight_nil : stackWeight [] = 0 := rfl

theorem stackWeight_cons (p : ScanNode × Bool) (rest : List (ScanNode × Bool)) :
    stackWeight (p :: rest) = p.1.weight + stackWeight rest := by
  simp [stackWeight]

theorem stackWeight_append (a b : List (ScanNode × Bool)) :
    stackWeight (a ++ b) = stackWeight a + stackWeight b := by
  simp [stackWeight]

theorem stackWeight_children (cs : List ScanNode) (b : Bool) :
    stackWeight (cs.map (fun c => (c, b))) = weightL cs := by
  induction cs with
  | nil => rfl
  | cons c rest ih => simp [stackWeight, weightL] at *; omega

theorem collectNode_def (rs : CompiledRuleSet) (n : ScanNode) :
    collectNode rs n =
      (if n.is_dir then
        (if anyStop (nodeRules rs n) then
          (nodeRules rs n).map (_insight_from_rule n)
         else if anyTempCache (nodeRules rs n) then
          (nodeRules rs n).map (_insight_from_rule n)
         else
          (nodeRules rs n).map (_insight_from_rule n) ++ collectL rs n.children)
       else (nodeRules rs n).map (_insight_from_rule n)) := by
  cases n; rfl

theorem processedNode_def (rs : CompiledRuleSet) (n : ScanNode) :
    processedNode rs n =
      n ::
        (if n.is_dir && !anyStop (nodeRules rs n)
            && !anyTempCache (nodeRules rs n) then
          processedL rs n.children
         else []) := by
  cases n; rfl

theorem flatMap_clearFlag (g : ScanNode → List Insight) (cs : List ScanNode) :
    ((cs.map (fun c => (c, false))).flatMap
        (fun p : ScanNode × Bool => if p.2 = true then [] else g p.1))
      = cs.flatMap g := by
  induction cs with
  | nil => rfl
  | cons c rest ih => simp [ih]

theorem collectL_eq_flatMap (rs : CompiledRuleSet) (l : List ScanNode) :
    collectL rs l = l.flatMap (collectNode rs) := by
  induction l with
  | nil => rfl
  | cons c cs ih => simp [collectL, ih]

theorem processedL_eq_flatMap (rs : CompiledRuleSet) (l : List ScanNode) :
    processedL rs l = l.flatMap (processedNode rs) := by
  induction l with
  | nil => rfl
  | cons c cs ih => simp [processedL, ih]

/-- The stack machine of `generate_insights` equals the fold of `_record`
over the pre-order record sequence, whenever the fuel covers the stack
weight (each step strictly shrinks the weight). -/
theorem traverseF_spec (rs : CompiledRuleSet) (maxK : Nat) :
    ∀ (fuel : Nat) (stack : List (ScanNode × Bool)) (st : EngineState),
      stackWeight stack ≤ fuel →
      traverseF rs maxK fuel st stack
        = (stackCollect rs stack).foldl (recordInsight maxK) st := by
  intro fuel
  induction fuel with
  | zero =>
    intro stack st h
    cases stack with
    | nil => simp [traverseF, stackCollect]
    | cons p rest =>
      exfalso
      have hw := weight_pos p.1
      rw [stackWeight_cons] at h
      omega
  | succ fuel ih =>
    intro stack st h
    cases stack with
    | nil => simp [traverseF, stackCollect]
    | cons p rest =>
      obtain ⟨node, flag⟩ := p
      rw [stackWeight_cons] at h
      dsimp only at h
      have hw := weight_pos node
      cases flag with
      | true =>
        show traverseF rs maxK (fuel + 1) st ((node, true) :: rest) = _
        rw [traverseF]
        simp only [if_pos rfl]
        rw [ih rest st (by omega)]
        simp [stackCollect]
      | false =>
        show traverseF rs maxK (fuel + 1) st ((node, false) :: rest) = _
        rw [traverseF]
        simp only [Bool.false_eq_true, if_false]
        have hcol : stackCollect rs ((node, false) :: rest)
            = collectNode rs node ++ stackCollect rs rest := by
          simp [stackCollect]
        by_cases hdir : node.is_dir
        · by_cases hstop : anyStop (nodeRules rs node)
          · rw [if_pos hdir, if_pos hstop, ih rest _ (by omega), hcol]
            rw [collectNode_def, if_pos hdir, if_pos hstop, List.foldl_append,
              List.foldl_map]
          · by_cases htc : anyTempCache (nodeRules rs node)
            · rw [if_pos hdir, if_neg hstop]
              have hwc : stackWeight
                  ((node.children.map (fun c => (c, anyTempCache (nodeRules rs node)))) ++ rest)
                    ≤ fuel := by
                rw [stackWeight_append, stackWeight_children]
                rw [weight_def] at h
                omega
              rw [ih _ _ hwc, hcol]
              rw [collectNode_def, if_pos hdir, if_neg hstop, if_pos htc]
              have : stackCollect rs
                  ((node.children.map (fun c => (c, anyTempCache (nodeRules rs node)))) ++ rest)
                    = stackCollect rs rest := by
                simp only [stackCollect, List.flatMap_append]
                rw [htc]
                simp
              rw [this, List.foldl_append, List.foldl_map]
            · rw [if_pos hdir, if_neg hstop]
              have hwc : stackWeight
                  ((node.children.map (fun c => (c, anyTempCache (nodeRules rs node)))) ++ rest)
                    ≤ fuel := by
                rw [stackWeight_append, stackWeight_children]
                rw [weight_def] at h
                omega
              rw [ih _ _ hwc, hcol]
              rw [collectNode_def, if_pos hdir, if_neg hstop, if_neg htc]
              have : stackCollect rs
                  ((node.children.map (fun c => (c, anyTempCache (nodeRules rs node)))) ++ rest)
                    = collectL rs node.children ++ stackCollect rs rest := by
                have htc' : anyTempCache (nodeRules rs node) = false := by
                  simpa using htc
                rw [stackCollect, List.flatMap_append, htc']
                rw [show (stackCollect rs rest)
                    = rest.flatMap (fun p => if p.2 = true then [] else collectNode rs p.1) from rfl]
                rw [flatMap_clearFlag, collectL_eq_flatMap]
              rw [this]
              simp only [List.foldl_append, List.foldl_map]
        · rw [if_neg hdir, ih rest _ (by omega), hcol]
          rw [collectNode_def, if_neg hdir, List.foldl_append, List.foldl_map]

/-- The engine state `generate_insights` computes is the `_record` fold over
`collectNode` of the root. -/
theorem generate_state (root : ScanNode) (config : AppConfig) :
    traverseF (configRuleset config) config.max_insights_per_category
        (ScanNode.weight root) initEngineState [(root, false)]
      = (collectNode (configRuleset config) root).foldl
          (recordInsight config.max_insights_per_category) initEngineState := by
  rw [traverseF_spec]
  · simp [stackCollect]
  · rw [stackWeight_cons, stackWeight_nil]
    dsimp only
    omega

-- ---------------------------------------------------------------------------
-- Heap contents: every entry of a heap was pushed at some point.
-- ---------------------------------------------------------------------------

theorem getD_mem_or (l : List α) (i : Nat) (d : α) :
    l.getD i d ∈ l ∨ l.getD i d = d := by
  rw [List.getD_eq_getElem?_getD]
  cases h : l[i]? with
  | none => right; rfl
  | some a =>
    left
    simp only [Option.getD_some]
    exact List.getElem?_mem h

theorem mem_set_or {l : List α} {i : Nat} {v x : α} (h : x ∈ l.set i v) :
    x ∈ l ∨ x = v := by
  rcases List.mem_or_eq_of_mem_set h with h' | h'
  · exact Or.inl h'
  · exact Or.inr h'

theorem siftdownF_subset (item : HeapEntry) :
    ∀ (fuel : Nat) (heap : List HeapEntry) (sp pos : Nat),
      ∀ x ∈ siftdownF item fuel heap sp pos, x ∈ heap ∨ x = item := by
  intro fuel
  induction fuel with
  | zero => intro heap sp pos x hx; exact mem_set_or hx
  | succ fuel ih =>
    intro heap sp pos x hx
    simp only [siftdownF] at hx
    split at hx
    · split at hx
      · rcases ih _ _ _ x hx with h' | h'
        · rcases mem_set_or h' with h'' | h''
          · exact Or.inl h''
          · subst h''
            rcases getD_mem_or heap ((pos - 1) / 2) item with hm | hm
            · exact Or.inl hm
            · exact Or.inr hm
        · exact Or.inr h'
      · exact mem_set_or hx
    · exact mem_set_or hx

theorem siftupF_subset (d : HeapEntry) :
    ∀ (fuel : Nat) (heap : List HeapEntry) (pos : Nat),
      ∀ x ∈ (siftupF d fuel heap pos).1, x ∈ heap ∨ x = d := by
  intro fuel
  induction fuel with
  | zero => intro heap pos x hx; exact Or.inl hx
  | succ fuel ih =>
    intro heap pos x hx
    simp only [siftupF] at hx
    split at hx
    · rcases ih _ _ x hx with h' | h'
      · rcases mem_set_or h' with h'' | h''
        · exact Or.inl h''
        · subst h''
          exact getD_mem_or heap _ d
      · exact Or.inr h'
    · exact Or.inl hx

theorem heappush_subset (heap : List HeapEntry) (item : HeapEntry) :
    ∀ x ∈ heappush heap item, x ∈ heap ∨ x = item := by
  intro x hx
  unfold heappush at hx
  rcases siftdownF_subset item _ _ _ _ x hx with h' | h'
  · rcases List.mem_append.1 h' with h'' | h''
    · exact Or.inl h''
    · exact Or.inr (List.mem_singleton.1 h'')
  · exact Or.inr h'

theorem heapreplace_subset (heap : List HeapEntry) (item : HeapEntry) :
    ∀ x ∈ heapreplace heap item, x ∈ heap ∨ x = item := by
  intro x hx
  unfold heapreplace siftup at hx
  rcases siftdownF_subset item _ _ _ _ x hx with h' | h'
  · rcases mem_set_or h' with h'' | h''
    · rcases siftupF_subset item _ _ _ x h'' with h3 | h3
      · rcases mem_set_or h3 with h4 | h4
        · exact Or.inl h4
        · exact Or.inr h4
      · exact Or.inr h3
    · exact Or.inr h''
  · exact Or.inr h'

theorem heapPushDedup_subset (heap : List HeapEntry) (seen : List (Str × Nat))
    (insight : Insight) (maxK : Nat) :
    ∀ x ∈ (heapPushDedup heap seen insight maxK).1,
      x ∈ heap ∨ x = (insight.disk_usage, insight.path, insight) := by
  intro x hx
  simp only [heapPushDedup] at hx
  split at hx
  · split at hx
    · exact Or.inl hx
    · split at hx
      · exact heappush_subset _ _ x hx
      · split at hx
        · exact heapreplace_subset _ _ x hx
        · exact Or.inl hx
  · split at hx
    · exact heappush_subset _ _ x hx
    · split at hx
      · exact heapreplace_subset _ _ x hx
      · exact Or.inl hx

theorem PerCat.get_update_self (p : PerCat α) (c : InsightCategory) (v : α) :
    (p.update c v).get c = v := by
  cases c <;> rfl

theorem PerCat.get_update (p : PerCat α) (c c' : InsightCategory) (v : α) :
    (p.update c v).get c' = if c' = c then v else p.get c' := by
  cases c <;> cases c' <;> simp [PerCat.update, PerCat.get]

theorem recordInsight_heaps (maxK : Nat) (st : EngineState) (i : Insight)
    (c : InsightCategory) :
    ∀ e ∈ (recordInsight maxK st i).heaps.get c,
      e ∈ st.heaps.get c ∨ (i.category = c ∧ e = (i.disk_usage, i.path, i)) := by
  intro e he
  unfold recordInsight at he
  simp only at he
  rw [PerCat.get_update] at he
  by_cases hc : c = i.category
  · subst hc
    rw [if_pos rfl] at he
    rcases heapPushDedup_subset _ _ _ _ e he with h' | h'
    · exact Or.inl h'
    · exact Or.inr ⟨rfl, h'⟩
  · rw [if_neg (fun h => hc h)] at he
    exact Or.inl he

theorem foldl_record_heaps (maxK : Nat) :
    ∀ (l : List Insight) (st : EngineState) (c : InsightCategory),
      ∀ e ∈ (l.foldl (recordInsight maxK) st).heaps.get c,
        e ∈ st.heaps.get c
          ∨ ∃ i ∈ l, i.category = c ∧ e = (i.disk_usage, i.path, i) := by
  intro l
  induction l with
  | nil => intro st c e he; exact Or.inl he
  | cons i rest ih =>
    intro st c e he
    rw [List.foldl_cons] at he
    rcases ih _ c e he with h' | h'
    · rcases recordInsight_heaps maxK st i c e h' with h'' | h''
      · exact Or.inl h''
      · exact Or.inr ⟨i, List.mem_cons_self _ _, h''⟩
    · rcases h' with ⟨j, hj, hjc, hje⟩
      exact Or.inr ⟨j, List.mem_cons_of_mem _ hj, hjc, hje⟩

-- ---------------------------------------------------------------------------
-- The merge phase: membership and path-distinctness of the final list.
-- ---------------------------------------------------------------------------

theorem mergeInner_subset
    (entries : List HeapEntry) :
    ∀ (a : List Insight × List Str),
      ∀ i ∈ (entries.foldl
          (fun (a : List Insight × List Str) e =>
            if a.2.contains e.2.1 then a else (a.1 ++ [e.2.2], a.2 ++ [e.2.1]))
          a).1,
        i ∈ a.1 ∨ ∃ e ∈ entries, i = e.2.2 := by
  induction entries with
  | nil => intro a i hi; exact Or.inl hi
  | cons e rest ih =>
    intro a i hi
    rw [List.foldl_cons] at hi
    by_cases hc : a.2.contains e.2.1
    · rw [if_pos hc] at hi
      rcases ih _ i hi with h' | h'
      · exact Or.inl h'
      · rcases h' with ⟨e', he', hie⟩
        exact Or.inr ⟨e', List.mem_cons_of_mem _ he', hie⟩
    · rw [if_neg hc] at hi
      rcases ih _ i hi with h' | h'
      · rcases List.mem_append.1 h' with h'' | h''
        · exact Or.inl h''
        · exact Or.inr ⟨e, List.mem_cons_self _ _, List.mem_singleton.1 h''⟩
      · rcases h' with ⟨e', he', hie⟩
        exact Or.inr ⟨e', List.mem_cons_of_mem _ he', hie⟩

theorem mergeHeaps_subset (heaps : PerCat (List HeapEntry)) :
    ∀ i ∈ mergeHeaps heaps,
      ∃ c ∈ allCategories, ∃ e ∈ heaps.get c, i = e.2.2 := by
  unfold mergeHeaps
  have main : ∀ (cats : List InsightCategory) (a : List Insight × List Str),
      ∀ i ∈ (cats.foldl
          (fun (a : List Insight × List Str) cat =>
            (sortByDesc (fun (e : HeapEntry) => e.1) (heaps.get cat)).foldl
              (fun (a : List Insight × List Str) e =>
                if a.2.contains e.2.1 then a else (a.1 ++ [e.2.2], a.2 ++ [e.2.1]))
              a)
          a).1,
        i ∈ a.1 ∨ ∃ c ∈ cats, ∃ e ∈ heaps.get c, i = e.2.2 := by
    intro cats
    induction cats with
    | nil => intro a i hi; exact Or.inl hi
    | cons cat rest ih =>
      intro a i hi
      rw [List.foldl_cons] at hi
      rcases ih _ i hi with h' | h'
      · rcases mergeInner_subset _ _ i h' with h'' | h''
        · exact Or.inl h''
        · rcases h'' with ⟨e, he, hie⟩
          have : e ∈ heaps.get cat := mem_sortByDesc.1 he
          exact Or.inr ⟨cat, List.mem_cons_self _ _, e, this, hie⟩
      · rcases h' with ⟨c, hc, e, he, hie⟩
        exact Or.inr ⟨c, List.mem_cons_of_mem _ hc, e, he, hie⟩
  intro i hi
  rcases main allCategories ([], []) i hi with h' | h'
  · cases h'
  · exact h'

/-- Invariant of the merge fold: the emitted paths are distinct and all of
them are in the `final_seen` list. -/
theorem mergeInner_nodup (entries : List HeapEntry)
    (hwf : ∀ e ∈ entries, e.2.1 = e.2.2.path) :
    ∀ (a : List Insight × List Str),
      (a.1.map Insight.path).Nodup → (∀ p ∈ a.1.map Insight.path, p ∈ a.2) →
      ((entries.foldl
          (fun (a : List Insight × List Str) e =>
            if a.2.contains e.2.1 then a else (a.1 ++ [e.2.2], a.2 ++ [e.2.1]))
          a).1.map Insight.path).Nodup ∧
        (∀ p ∈ ((entries.foldl
            (fun (a : List Insight × List Str) e =>
              if a.2.contains e.2.1 then a else (a.1 ++ [e.2.2], a.2 ++ [e.2.1]))
            a).1.map Insight.path), p ∈ (entries.foldl
              (fun (a : List Insight × List Str) e =>
                if a.2.contains e.2.1 then a else (a.1 ++ [e.2.2], a.2 ++ [e.2.1]))
              a).2) := by
  induction entries with
  | nil => intro a h1 h2; exact ⟨h1, h2⟩
  | cons e rest ih =>
    intro a h1 h2
    have hwf' : ∀ e' ∈ rest, e'.2.1 = e'.2.2.path :=
      fun e' he' => hwf e' (List.mem_cons_of_mem _ he')
    rw [List.foldl_cons]
    by_cases hc : a.2.contains e.2.1
    · rw [if_pos hc]
      exact ih hwf' a h1 h2
    · rw [if_neg hc]
      refine ih hwf' _ ?_ ?_
      · rw [List.map_append]
        refine List.Nodup.append h1 (by simp) ?_
        intro p hp hp'
        rcases List.mem_singleton.1 (by simpa using hp') with rfl
        have : e.2.2.path ∈ a.2 := h2 _ hp
        rw [← hwf e (List.mem_cons_self _ _)] at this
        exact hc (List.elem_iff.2 this)
      · intro p hp
        rw [List.map_append] at hp
        rcases List.mem_append.1 hp with h' | h'
        · exact List.mem_append_left _ (h2 _ h')
        · rcases List.mem_singleton.1 (by simpa using h') with rfl
          refine List.mem_append_right _ ?_
          rw [← hwf e (List.mem_cons_self _ _)]
          exact List.mem_singleton.2 rfl

theorem mergeHeaps_nodup (heaps : PerCat (List HeapEntry))
    (hwf : ∀ c, ∀ e ∈ heaps.get c, e.2.1 = e.2.2.path) :
    ((mergeHeaps heaps).map Insight.path).Nodup := by
  unfold mergeHeaps
  have main : ∀ (cats : List InsightCategory) (a : List Insight × List Str),
      (a.1.map Insight.path).Nodup → (∀ p ∈ a.1.map Insight.path, p ∈ a.2) →
      (((cats.foldl
          (fun (a : List Insight × List Str) cat =>
            (sortByDesc (fun (e : HeapEntry) => e.1) (heaps.get cat)).foldl
              (fun (a : List Insight × List Str) e =>
                if a.2.contains e.2.1 then a else (a.1 ++ [e.2.2], a.2 ++ [e.2.1]))
              a)
          a).1.map Insight.path)).Nodup := by
    intro cats
    induction cats with
    | nil => intro a h1 h2; exact h1
    | cons cat rest ih =>
      intro a h1 h2
      rw [List.foldl_cons]
      have hwfS : ∀ e ∈ sortByDesc (fun (e : HeapEntry) => e.1) (heaps.get cat),
          e.2.1 = e.2.2.path :=
        fun e he => hwf cat e (mem_sortByDesc.1 he)
      rcases mergeInner_nodup _ hwfS a h1 h2 with ⟨hn, hs⟩
      exact ih _ hn hs
  exact main allCategories ([], []) (by simp) (by simp)

-- ---------------------------------------------------------------------------
-- Claims C3, C4, C10
-- ---------------------------------------------------------------------------

/-- Tree for the C3 failing input: one matched file with `size_bytes = 5`,
`disk_usage = 7`. -/
def treeC3 : ScanNode :=
  .mk "/r".toList "r".toList .directory 12 14
    [ .mk "/r/boo".toList "boo".toList .file 5 7 [] ]

/-- Config for the C3 failing input: one Temp rule matching `boo`. -/
def cfgC3 : AppConfig :=
  { temp_patterns :=
      [⟨"T".toList, "**/boo".toList, .temp, .ofStr "both".toList, false⟩] }

/-- C3 fails on the code: `generate_insights` maintains exact per-category
counts and `disk_usage` sums, but it never populates the bundle's
`category_size_bytes` dict — the field keeps its dataclass default `{}`
even though one insight with `size_bytes = 5` was recorded (and
`dux/ui/app.py` reads `bundle.category_size_bytes`, always obtaining 0).
This theorem evaluates the code at the failing input. -/
theorem insights_category_size_bytes_unpopulated :
    (generate_insights treeC3 cfgC3).category_counts = [(.temp, 1)]
      ∧ (generate_insights treeC3 cfgC3).category_disk_usage = [(.temp, 7)]
      ∧ (generate_insights treeC3 cfgC3).insights.map Insight.size_bytes = [5]
      ∧ (generate_insights treeC3 cfgC3).category_size_bytes = [] := by decide

/-- Tree for the C4 counterexample: one file recorded under two
categories. -/
def treeC4 : ScanNode :=
  .mk "/r".toList "r".toList .directory 12 14
    [ .mk "/r/boo".toList "boo".toList .file 5 7 [] ]

/-- Config for the C4 counterexample: a Temp rule and a Cache rule that both
match `boo`; the default heap capacity (1000) retains both records. -/
def cfgC4 : AppConfig :=
  { temp_patterns :=
      [⟨"T".toList, "**/boo".toList, .temp, .ofStr "both".toList, false⟩]
    cache_patterns :=
      [⟨"C".toList, "**/boo".toList, .cache, .ofStr "both".toList, false⟩] }

/-- C4 counterexample: `/r/boo` is recorded under Temp and under Cache
(`category_counts` shows both, and with capacity 1000 both survive their
heaps), yet the final `insights` contain only the Temp entry — the
`final_seen` dedup set is shared across categories, so the cross-category
duplicate is dropped, not kept. -/
theorem insights_cross_category_dedup_counterexample :
    ((generate_insights treeC4 cfgC4).insights.map (fun i => (i.category, i.path))
        = [(.temp, "/r/boo".toList)])
      ∧ (generate_insights treeC4 cfgC4).category_counts
          = [(.temp, 1), (.cache, 1)]
      ∧ cfgC4.max_insights_per_category = 1000 := by decide

/-- C4 (amended): deduplication by path in the final merge is global across
categories — the bundle's `insights` never contain two entries with the same
path, and a path surviving several categories' heaps is emitted only for the
first such category in `Temp, Cache, BuildArtifact` order. -/
theorem insights_paths_nodup (root : ScanNode) (config : AppConfig)
    (hK : 10 ≤ config.max_insights_per_category) :
    (((generate_insights root config).insights).map Insight.path).Nodup := by
  unfold generate_insights
  simp only
  rw [generate_state]
  have hwf : ∀ c, ∀ e ∈ ((collectNode (configRuleset config) root).foldl
      (recordInsight config.max_insights_per_category) initEngineState).heaps.get c,
      e.2.1 = e.2.2.path := by
    intro c e he
    rcases foldl_record_heaps _ _ _ c e he with h' | h'
    · cases c <;> simp [initEngineState, PerCat.get] at h'
    · rcases h' with ⟨i, _, _, rfl⟩
      rfl
  have h1 := mergeHeaps_nodup _ hwf
  have hperm :=
    (sortByDesc_perm Insight.disk_usage
      (mergeHeaps ((collectNode (configRuleset config) root).foldl
        (recordInsight config.max_insights_per_category) initEngineState).heaps)).map
      Insight.path
  exact hperm.nodup_iff.2 h1

/-- Witness for the amended C4 at a concrete run. -/
theorem insights_paths_nodup_witness :
    10 ≤ cfgC4.max_insights_per_category
      ∧ (((generate_insights treeC4 cfgC4).insights).map Insight.path).Nodup :=
  ⟨by decide, insights_paths_nodup treeC4 cfgC4 (by decide)⟩

/-- C10: `filter_insights` is exactly the order-preserving filter of
`bundle.insights` by category membership, and on a bundle produced by
`generate_insights` its result stays sorted by `disk_usage` descending. -/
theorem filter_insights_spec (bundle : InsightBundle)
    (cats : List InsightCategory) (root : ScanNode) (config : AppConfig)
    (hK : 10 ≤ config.max_insights_per_category) :
    filter_insights bundle cats
        = bundle.insights.filter (fun i => cats.contains i.category)
      ∧ (filter_insights (generate_insights root config) cats).Pairwise
          (fun a b => b.disk_usage ≤ a.disk_usage) := by
  refine ⟨rfl, ?_⟩
  unfold filter_insights generate_insights
  simp only
  exact List.Pairwise.filter _ (sortByDesc_pairwise Insight.disk_usage _)

/-- Tree for the C10 witness: two matched files with distinct usages. -/
def treeC10 : ScanNode :=
  .mk "/r".toList "r".toList .directory 12 12
    [ .mk "/r/a.log".toList "a.log".toList .file 3 3 [],
      .mk "/r/b.log".toList "b.log".toList .file 9 9 [] ]

/-- Config for the C10 witness. -/
def cfgC10 : AppConfig :=
  { temp_patterns :=
      [⟨"T".toList, "**/*.log".toList, .temp, .ofStr "both".toList, false⟩] }

/-- Witness for C10 at a concrete bundle and run. -/
theorem filter_insights_spec_witness :
    10 ≤ cfgC10.max_insights_per_category
      ∧ (filter_insights (generate_insights treeC10 cfgC10)
            [InsightCategory.temp]
          = (generate_insights treeC10 cfgC10).insights.filter
              (fun i => [InsightCategory.temp].contains i.category)
        ∧ (filter_insights (generate_insights treeC10 cfgC10)
            [InsightCategory.temp]).Pairwise
            (fun a b => b.disk_usage ≤ a.disk_usage)) :=
  ⟨by decide,
    filter_insights_spec (generate_insights treeC10 cfgC10)
      [InsightCategory.temp] treeC10 cfgC10 (by decide)⟩

-- ---------------------------------------------------------------------------
-- Claim C5: subtrees below matched temp/cache nodes contribute nothing.
-- ---------------------------------------------------------------------------

theorem mem_properDesc_allNodes {n d : ScanNode} (h : d ∈ n.properDesc) :
    d ∈ n.allNodes := by
  rw [allNodes_def]
  exact List.mem_cons_of_mem _ h

theorem allNodes_trans :
    ∀ (t n : ScanNode), n ∈ t.allNodes → ∀ m ∈ n.allNodes, m ∈ t.allNodes := by
  intro t
  induction t using ScanNode.inductionOn with
  | h p nm k sb du cs ih =>
    intro n hn m hm
    rw [allNodes_def] at hn
    rcases List.mem_cons.1 hn with rfl | hn'
    · exact hm
    · have hcs : (ScanNode.mk p nm k sb du cs).children = cs := rfl
      rw [hcs] at hn'
      rcases mem_allNodesL.1 hn' with ⟨c, hc, hnc⟩
      have hmc := ih c hc n hnc m hm
      rw [allNodes_def, hcs]
      exact List.mem_cons_of_mem _ (mem_allNodesL.2 ⟨c, hc, hmc⟩)

theorem processed_subset_allNodes (rs : CompiledRuleSet) :
    ∀ t, ∀ n ∈ processedNode rs t, n ∈ t.allNodes := by
  intro t
  induction t using ScanNode.inductionOn with
  | h p nm k sb du cs ih =>
    intro n hn
    rw [processedNode_def] at hn
    rcases List.mem_cons.1 hn with rfl | hn'
    · exact self_mem_allNodes _
    · split at hn'
      · have hcs : (ScanNode.mk p nm k sb du cs).children = cs := rfl
        rw [hcs, processedL_eq_flatMap] at hn'
        rcases List.mem_flatMap.1 hn' with ⟨c, hc, hnc⟩
        rw [allNodes_def, hcs]
        exact List.mem_cons_of_mem _ (mem_allNodesL.2 ⟨c, hc, ih c hc n hnc⟩)
      · cases hn'

theorem collect_from_processed (rs : CompiledRuleSet) :
    ∀ t, ∀ i ∈ collectNode rs t,
      ∃ m ∈ processedNode rs t, ∃ r ∈ nodeRules rs m,
        i = _insight_from_rule m r := by
  intro t
  induction t using ScanNode.inductionOn with
  | h p nm k sb du cs ih =>
    intro i hi
    have hcs : (ScanNode.mk p nm k sb du cs).children = cs := rfl
    have hself : (ScanNode.mk p nm k sb du cs)
        ∈ processedNode rs (ScanNode.mk p nm k sb du cs) := by
      rw [processedNode_def]
      exact List.mem_cons_self _ _
    have hown : ∀ i', i' ∈ (nodeRules rs (ScanNode.mk p nm k sb du cs)).map
        (_insight_from_rule (ScanNode.mk p nm k sb du cs)) →
        ∃ m ∈ processedNode rs (ScanNode.mk p nm k sb du cs),
          ∃ r ∈ nodeRules rs m, i' = _insight_from_rule m r := by
      intro i' hi'
      rcases List.mem_map.1 hi' with ⟨r, hr, rfl⟩
      exact ⟨_, hself, r, hr, rfl⟩
    rw [collectNode_def, hcs] at hi
    by_cases hdir : (ScanNode.mk p nm k sb du cs).is_dir
    · rw [if_pos hdir] at hi
      by_cases hstop : anyStop (nodeRules rs (ScanNode.mk p nm k sb du cs))
      · rw [if_pos hstop] at hi
        exact hown i hi
      · rw [if_neg hstop] at hi
        by_cases htc : anyTempCache (nodeRules rs (ScanNode.mk p nm k sb du cs))
        · rw [if_pos htc] at hi
          exact hown i hi
        · rw [if_neg htc] at hi
          rcases List.mem_append.1 hi with hi' | hi'
          · exact hown i hi'
          · rw [collectL_eq_flatMap] at hi'
            rcases List.mem_flatMap.1 hi' with ⟨c, hc, hic⟩
            rcases ih c hc i hic with ⟨m, hmp, r, hr, hir⟩
            refine ⟨m, ?_, r, hr, hir⟩
            rw [processedNode_def, hcs]
            have hcond : ((ScanNode.mk p nm k sb du cs).is_dir
                && !anyStop (nodeRules rs (ScanNode.mk p nm k sb du cs))
                && !anyTempCache (nodeRules rs (ScanNode.mk p nm k sb du cs)))
                  = true := by
              simp [hdir, hstop, htc]
            rw [if_pos hcond, processedL_eq_flatMap]
            exact List.mem_cons_of_mem _ (List.mem_flatMap.2 ⟨c, hc, hmp⟩)
    · rw [if_neg hdir] at hi
      exact hown i hi

/-- Below a processed node matched as temp/cache, no node is processed:
stated on paths, assuming all node paths in the tree are distinct (true of
any scanned filesystem tree). -/
theorem processed_tempcache_no_desc (rs : CompiledRuleSet) :
    ∀ t : ScanNode, ((t.allNodes).map ScanNode.path).Nodup →
      ∀ n ∈ processedNode rs t, anyTempCache (nodeRules rs n) = true →
      ∀ d ∈ n.properDesc, ∀ m ∈ processedNode rs t, m.path ≠ d.path := by
  intro t
  induction t using ScanNode.inductionOn with
  | h p nm k sb du cs ih =>
    intro hnd n hn htc d hd m hm
    have hcs : (ScanNode.mk p nm k sb du cs).children = cs := rfl
    have hnd' : ((ScanNode.mk p nm k sb du cs).path
        :: (allNodesL cs).map ScanNode.path).Nodup := by
      rw [allNodes_def, hcs] at hnd
      simpa using hnd
    have htail := (List.nodup_cons.1 hnd').2
    have hhead := (List.nodup_cons.1 hnd').1
    have htailFM : (cs.flatMap (fun c => (c.allNodes).map ScanNode.path)).Nodup := by
      rw [allNodesL_eq_flatMap, List.map_flatMap] at htail
      exact htail
    rw [processedNode_def, hcs] at hn hm
    rcases List.mem_cons.1 hn with rfl | hn'
    · -- n is the root of this subtree and is temp/cache: nothing below is
      -- processed, so m must be the root as well
      have hcond : ((ScanNode.mk p nm k sb du cs).is_dir
          && !anyStop (nodeRules rs (ScanNode.mk p nm k sb du cs))
          && !anyTempCache (nodeRules rs (ScanNode.mk p nm k sb du cs)))
            = false := by
        simp [htc]
      rw [hcond, if_neg (by simp)] at hm
      rcases List.mem_cons.1 hm with rfl | hm'
      · intro hpath
        refine hhead ?_
        rw [hpath]
        rw [ScanNode.properDesc, hcs] at hd
        exact List.mem_map_of_mem _ hd
      · cases hm'
    · by_cases hcond : ((ScanNode.mk p nm k sb du cs).is_dir
        && !anyStop (nodeRules rs (ScanNode.mk p nm k sb du cs))
        && !anyTempCache (nodeRules rs (ScanNode.mk p nm k sb du cs)))
          = true
      · rw [if_pos hcond, processedL_eq_flatMap] at hn' hm
        rcases List.mem_flatMap.1 hn' with ⟨c, hc, hnc⟩
        have hdc : d ∈ c.allNodes := by
          refine allNodes_trans c n (processed_subset_allNodes rs c n hnc) d ?_
          exact mem_properDesc_allNodes hd
        rcases List.mem_cons.1 hm with rfl | hm'
        · -- m is the root of this subtree; its path heads the Nodup list
          intro hpath
          refine hhead ?_
          rw [hpath]
          rw [allNodesL_eq_flatMap]
          rw [List.map_flatMap]
          exact List.mem_flatMap.2 ⟨c, hc, List.mem_map_of_mem _ hdc⟩
        · rcases List.mem_flatMap.1 hm' with ⟨c', hc', hmc'⟩
          by_cases hcc : c = c'
          · subst hcc
            have hndc : ((c.allNodes).map ScanNode.path).Nodup :=
              (List.nodup_flatMap.1 htailFM).1 c hc
            exact ih c hc hndc n hnc htc d hd m hmc'
          · intro hpath
            have hdisj := (List.nodup_flatMap.1 htailFM).2
            have hsym : Symmetric
                (Function.onFun List.Disjoint
                  (fun c : ScanNode => (c.allNodes).map ScanNode.path)) := by
              intro a b hab
              exact List.Disjoint.symm hab
            have hDisj := List.Pairwise.forall hsym hdisj hc hc' hcc
            have hdp : d.path ∈ (c.allNodes).map ScanNode.path :=
              List.mem_map_of_mem _ hdc
            have hmp : m.path ∈ (c'.allNodes).map ScanNode.path :=
              List.mem_map_of_mem _ (processed_subset_allNodes rs c' m hmc')
            rw [hpath] at hmp
            exact hDisj hdp hmp
      · rw [if_neg hcond] at hn'
        cases hn'

/-- C5: if a node is matched by any Temp or Cache rule while it is processed
by the insight traversal, then no insight in the produced bundle carries the
path of a proper descendant of that node (the subtree is skipped entirely);
node paths are assumed distinct, as in any scanned tree. -/
theorem insights_skip_tempcache_subtree (root : ScanNode) (config : AppConfig)
    (hNodup : ((root.allNodes).map ScanNode.path).Nodup)
    (n : ScanNode) (hn : n ∈ processedNode (configRuleset config) root)
    (hmatched : anyTempCache (nodeRules (configRuleset config) n) = true)
    (d : ScanNode) (hd : d ∈ n.properDesc) :
    ∀ i ∈ (generate_insights root config).insights, i.path ≠ d.path := by
  intro i hi hpath
  unfold generate_insights at hi
  simp only at hi
  rw [generate_state] at hi
  have hi' := (sortByDesc_perm Insight.disk_usage _).mem_iff.1 hi
  rcases mergeHeaps_subset _ i hi' with ⟨c, -, e, he, hie⟩
  rcases foldl_record_heaps _ _ _ c e he with h0 | ⟨j, hj, -, hje⟩
  · cases c <;> simp [initEngineState, PerCat.get] at h0
  · subst hje
    rcases collect_from_processed _ root j hj with ⟨m, hmp, r, -, hjr⟩
    subst hie
    have : m.path = d.path := by
      rw [hjr] at hpath
      exact hpath
    exact processed_tempcache_no_desc _ root hNodup n hn hmatched d hd m hmp this

/-- Tree for the C5 witness: `/r/t` matches a Temp rule; its child must not
contribute. -/
def treeC5 : ScanNode :=
  .mk "/r".toList "r".toList .directory 0 0
    [ .mk "/r/t".toList "t".toList .directory 9 9
        [ .mk "/r/t/g.log".toList "g.log".toList .file 5 5 [] ] ]

/-- The matched temp directory inside `treeC5`. -/
def nodeC5 : ScanNode :=
  .mk "/r/t".toList "t".toList .directory 9 9
    [ .mk "/r/t/g.log".toList "g.log".toList .file 5 5 [] ]

/-- The skipped descendant inside `treeC5`. -/
def descC5 : ScanNode :=
  .mk "/r/t/g.log".toList "g.log".toList .file 5 5 []

/-- Config for the C5 witness: one Temp rule matching the `t` directory. -/
def cfgC5 : AppConfig :=
  { temp_patterns :=
      [⟨"T".toList, "**/t".toList, .temp, .ofStr "both".toList, false⟩] }

/-- Witness for C5 at a concrete run. -/
theorem insights_skip_tempcache_subtree_witness :
    (((treeC5.allNodes).map ScanNode.path).Nodup
        ∧ nodeC5 ∈ processedNode (configRuleset cfgC5) treeC5
        ∧ anyTempCache (nodeRules (configRuleset cfgC5) nodeC5) = true
        ∧ descC5 ∈ nodeC5.properDesc)
      ∧ (∀ i ∈ (generate_insights treeC5 cfgC5).insights,
          i.path ≠ descC5.path) :=
  ⟨⟨by decide, by decide, by decide, by decide⟩,
    insights_skip_tempcache_subtree treeC5 cfgC5 (by decide) nodeC5 (by decide)
      (by decide) descC5 (by decide)⟩

end Dux

namespace DiskAnalysis

open Dux (Str NodeKind sortByDesc sortByDesc_perm sortByDesc_pairwise mem_sortByDesc)

/-- `diskanalysis.models.scan.ScanNode`: this earlier variant has no
`disk_usage` field; `modified_ts` (a POSIX timestamp float) is carried as an
opaque integer — no claim depends on it. -/
inductive ScanNode where
  | mk (path name : Str) (kind : NodeKind) (size_bytes : Nat)
      (modified_ts : Int) (children : List ScanNode)
deriving Repr

def ScanNode.path : ScanNode → Str
  | .mk p _ _ _ _ _ => p

def ScanNode.name : ScanNode → Str
  | .mk _ n _ _ _ _ => n

def ScanNode.kind : ScanNode → NodeKind
  | .mk _ _ k _ _ _ => k

def ScanNode.size_bytes : ScanNode → Nat
  | .mk _ _ _ sb _ _ => sb

def ScanNode.children : ScanNode → List ScanNode
  | .mk _ _ _ _ _ cs => cs

mutual

/-- Number of nodes in a subtree. -/
def ScanNode.weight : ScanNode → Nat
  | .mk _ _ _ _ _ cs => 1 + weightL cs

def weightL : List ScanNode → Nat
  | [] => 0
  | c :: cs => c.weight + weightL cs

end

theorem dnode_weight_def (t : ScanNode) : t.weight = 1 + weightL t.children := by
  cases t; rfl

theorem dnode_weight_pos (t : ScanNode) : 1 ≤ t.weight := by
  rw [dnode_weight_def]; omega

theorem weightL_append (a b : List ScanNode) :
    weightL (a ++ b) = weightL a + weightL b := by
  induction a with
  | nil => simp [weightL]
  | cons c cs ih => simp [weightL, ih]; omega

theorem weightL_reverse (l : List ScanNode) :
    weightL l.reverse = weightL l := by
  induction l with
  | nil => rfl
  | cons c cs ih =>
    simp [weightL, List.reverse_cons, weightL_append, ih]
    omega

mutual

/-- The order in which `iter_nodes`'s explicit stack yields a subtree: the
node first, then its children's subtrees from the last child to the first
(the stack pops `children` from the end). -/
def revPre : ScanNode → List ScanNode
  | .mk p n k sb ts cs => .mk p n k sb ts cs :: revPreRL cs

def revPreRL : List ScanNode → List ScanNode
  | [] => []
  | c :: cs => revPreRL cs ++ revPre c

end

/-- The `while stack: node = stack.pop(); yield node;
stack.extend(node.children)` loop of `iter_nodes` (tree.py:10-16), with the
stack top at the head and fuel covering the stack weight (each step pops one
node and pushes only its children). -/
def iterNodesF : Nat → List ScanNode → List ScanNode
  | _, [] => []
  | 0, _ :: _ => []
  | fuel + 1, n :: rest => n :: iterNodesF fuel (n.children.reverse ++ rest)

/-- `iter_nodes` (tree.py:10-16). -/
def iter_nodes (root : ScanNode) : List ScanNode :=
  iterNodesF root.weight [root]

theorem revPre_def (n : ScanNode) :
    revPre n = n :: revPreRL n.children := by
  cases n; rfl

theorem revPreRL_eq (l : List ScanNode) :
    revPreRL l = l.reverse.flatMap revPre := by
  induction l with
  | nil => rfl
  | cons c cs ih => simp [revPreRL, List.reverse_cons, ih]

theorem iterNodesF_spec :
    ∀ (fuel : Nat) (stack : List ScanNode), weightL stack ≤ fuel →
      iterNodesF fuel stack = stack.flatMap revPre := by
  intro fuel
  induction fuel with
  | zero =>
    intro stack h
    cases stack with
    | nil => rfl
    | cons n rest =>
      exfalso
      have := dnode_weight_pos n
      simp [weightL] at h
      omega
  | succ fuel ih =>
    intro stack h
    cases stack with
    | nil => rfl
    | cons n rest =>
      rw [iterNodesF]
      simp only [weightL] at h
      have hw := dnode_weight_pos n
      have hwc : weightL (n.children.reverse ++ rest) ≤ fuel := by
        rw [weightL_append, weightL_reverse]
        rw [dnode_weight_def] at h
        omega
      rw [ih _ hwc]
      simp only [List.flatMap_cons, List.flatMap_append, revPre_def,
        revPreRL_eq]
      simp

/-- The generator-expression filter inside `top_nodes` (tree.py:23-27). -/
def topItems (root : ScanNode) (kind : Option NodeKind) : List ScanNode :=
  (iter_nodes root).filter
    (fun node =>
      !(node.path == root.path) && (kind.isNone || kind == some node.kind))

/-- `top_nodes` (tree.py:19-29): `heapq.nlargest(n, items, key=size_bytes)`,
which CPython documents (and implements) as
`sorted(items, key=key, reverse=True)[:n]`, a stable descending sort
followed by a prefix. -/
def top_nodes (root : ScanNode) (n : Nat) (kind : Option NodeKind) :
    List ScanNode :=
  (sortByDesc ScanNode.size_bytes (topItems root kind)).take n

/-- C9 (amended): `top_nodes` returns at most `n` nodes, never a node with
the root's path, only nodes of the requested kind, and the `n` largest by
`size_bytes` — every dropped candidate is no larger than every returned
node, and returned ++ dropped is a permutation of the candidates; the output
is non-increasing (descending with possible ties) by `size_bytes`, the only
size this variant's node model carries. -/
theorem top_nodes_spec (root : ScanNode) (n : Nat) (kind : Option NodeKind) :
    (top_nodes root n kind).length ≤ n
      ∧ (∀ x ∈ top_nodes root n kind, ¬(x.path = root.path))
      ∧ (∀ k, kind = some k → ∀ x ∈ top_nodes root n kind, x.kind = k)
      ∧ (∀ x ∈ top_nodes root n kind,
          ∀ y ∈ (sortByDesc ScanNode.size_bytes (topItems root kind)).drop n,
            y.size_bytes ≤ x.size_bytes)
      ∧ List.Perm
          (top_nodes root n kind
            ++ (sortByDesc ScanNode.size_bytes (topItems root kind)).drop n)
          (topItems root kind)
      ∧ (top_nodes root n kind).Pairwise
          (fun a b => b.size_bytes ≤ a.size_bytes) := by
  have hsorted := sortByDesc_pairwise ScanNode.size_bytes (topItems root kind)
  have hsub : List.Sublist (top_nodes root n kind)
      (sortByDesc ScanNode.size_bytes (topItems root kind)) :=
    List.take_sublist _ _
  have hmemItems : ∀ x ∈ top_nodes root n kind, x ∈ topItems root kind := by
    intro x hx
    exact mem_sortByDesc.1 (hsub.mem hx)
  refine ⟨?_, ?_, ?_, ?_, ?_, ?_⟩
  · exact List.length_take_le _ _
  · intro x hx
    have := List.of_mem_filter (hmemItems x hx)
    intro hpath
    simp [hpath] at this
  · intro k hk x hx
    subst hk
    have := List.of_mem_filter (hmemItems x hx)
    simp only [Option.isNone_some, Bool.false_or, Bool.and_eq_true] at this
    have h2 := this.2
    simp only [beq_iff_eq, Option.some.injEq] at h2
    exact h2.symm
  · intro x hx y hy
    have hsplit := List.take_append_drop n
      (sortByDesc ScanNode.size_bytes (topItems root kind))
    have hpw : (List.take n (sortByDesc ScanNode.size_bytes (topItems root kind))
        ++ List.drop n (sortByDesc ScanNode.size_bytes (topItems root kind))).Pairwise
          (fun a b => ScanNode.size_bytes b ≤ ScanNode.size_bytes a) := by
      rw [hsplit]
      exact hsorted
    exact (List.pairwise_append.1 hpw).2.2 x hx y hy
  · have := List.take_append_drop n
      (sortByDesc ScanNode.size_bytes (topItems root kind))
    rw [show top_nodes root n kind
        = (sortByDesc ScanNode.size_bytes (topItems root kind)).take n from rfl]
    rw [this]
    exact sortByDesc_perm _ _
  · exact hsorted.sublist hsub

/-- Tree for the C9 counterexample: two files with equal sizes. -/
def treeC9 : ScanNode :=
  .mk "/r".toList "r".toList .directory 10 0
    [ .mk "/r/a".toList "a".toList .file 5 0 [],
      .mk "/r/b".toList "b".toList .file 5 0 [] ]

/-- C9 counterexample: with two equal-sized candidates the output of
`top_nodes` is not strictly decreasing (and the code keys on `size_bytes`;
the claim's `disk_usage` does not exist on this variant's node model, the
spec itself noting `disk_usage` "may equal `size_bytes`"). -/
theorem top_nodes_not_strictly_decreasing :
    (top_nodes treeC9 2 none).map ScanNode.size_bytes = [5, 5]
      ∧ ¬((top_nodes treeC9 2 none).Pairwise
          (fun a b => b.size_bytes < a.size_bytes)) := by
  constructor
  · decide
  · decide

end DiskAnalysis

namespace Dux

-- ---------------------------------------------------------------------------
-- `dux.services.scanner.scan_path` (C8): cancellation semantics.
-- ---------------------------------------------------------------------------

/-- Modelled from the spec: `dux.services.fs` is not under `src/`; spec §4.1
gives `stat(path) → (size, disk_usage, is_dir)`. -/
structure StatResult where
  size : Nat
  disk_usage : Nat
  is_dir : Bool
deriving DecidableEq, Repr

/-- Modelled from the spec §4.1: an `Entry` carries "a resolved stat or a
null stat indicating a per-entry access failure". -/
structure DirEntry where
  path : Str
  name : Str
  stat : Option StatResult
deriving DecidableEq, Repr

/-- Modelled from the spec §4.1: the FS adapter capability set, as data.
`stat` and `scandir` return `none` where the real adapter raises `OSError`. -/
structure FileSystem where
  expanduser : Str → Str
  pathExists : Str → Bool
  absolute : Str → Str
  stat : Str → Option StatResult
  scandir : Str → Option (List DirEntry)

/-- `dux.models.scan.ScanErrorCode` (shape as in
`diskanalysis.models.scan`). -/
inductive ScanErrorCode
  | not_found
  | not_directory
  | root_stat_failed
  | cancelled
  | internal
deriving DecidableEq, Repr

/-- `ScanError`. -/
structure ScanError where
  code : ScanErrorCode
  path : Str
  message : Str
deriving DecidableEq, Repr

/-- `ScanStats`. -/
structure ScanStats where
  files : Nat
  directories : Nat
  access_errors : Nat
deriving DecidableEq, Repr

/-- `ScanSnapshot`. -/
structure ScanSnapshot where
  root : ScanNode
  stats : ScanStats
deriving DecidableEq, Repr

/-- `ScanResult = Result[ScanSnapshot, ScanError]`; `Err ↦ .error`. -/
abbrev ScanResult := Except ScanError ScanSnapshot

/-- The scanner's observable running state in the sequential (single-worker)
model: the FIFO task queue, the `cancelled` event, the number of
`cancel_check` invocations so far, the shared statistics, and the
parent-path → appended-children map standing in for the mutated tree. -/
structure ScanState where
  queue : List (Str × Nat)
  cancelFlag : Bool
  polls : Nat
  files : Nat
  directories : Nat
  access_errors : Nat
  childMap : List (Str × List ScanNode)
deriving DecidableEq, Repr

/-- The initial state: `stats = ScanStats(files=0, directories=1,
access_errors=0)` (scanner.py:97), no cancellation observed. -/
def initScanState (q : List (Str × Nat)) : ScanState :=
  ⟨q, false, 0, 0, 1, 0, []⟩

/-- `_is_cancelled` (scanner.py:101-107): once the `cancelled` event is set
the probe is no longer consulted; otherwise consult it (the poll counter
indexes successive probe calls) and latch a true answer. -/
def isCancelledS (p : Nat → Bool) (st : ScanState) : Bool × ScanState :=
  if st.cancelFlag then (true, st)
  else if p st.polls then
    (true, { st with polls := st.polls + 1, cancelFlag := true })
  else (false, { st with polls := st.polls + 1 })

/-- The per-entry loop of `run_worker` (scanner.py:143-171): poll
cancellation (breaking out on true), count a null stat as an access error,
otherwise create the child node, append it to the parent, and enqueue
directory tasks within the depth limit.  Per-worker local counters flushed
on task boundaries collapse, sequentially, to direct increments; the
advisory progress callback does not affect the state and is not modelled. -/
def processEntries (p : Nat → Bool) (max_depth : Option Nat)
    (taskPath : Str) (depth : Nat) :
    List DirEntry → ScanState → ScanState
  | [], st => st
  | e :: rest, st =>
    match isCancelledS p st with
    | (true, stc) => stc
    | (false, stc) =>
      match e.stat with
      | none =>
        processEntries p max_depth taskPath depth rest
          { stc with access_errors := stc.access_errors + 1 }
      | some stt =>
        let node : ScanNode :=
          .mk e.path e.name (if stt.is_dir then .directory else .file)
            (if stt.is_dir then 0 else stt.size)
            (if stt.is_dir then 0 else stt.disk_usage) []
        let st1 := { stc with childMap := dictAppend stc.childMap taskPath node }
        let st2 :=
          if stt.is_dir then
            let within : Bool :=
              match max_depth with
              | none => true
              | some d => decide (depth < d)
            { st1 with
              directories := st1.directories + 1
              queue := if within then st1.queue ++ [(e.path, depth + 1)] else st1.queue }
          else { st1 with files := st1.files + 1 }
        processEntries p max_depth taskPath depth rest st2

/-- The worker loop of `scan_path` (scanner.py:131-176) run sequentially
（one worker owns the whole FIFO queue): take a task, poll cancellation
(skipping the task once cancellation is observed, which drains the queue),
read the directory (an `OSError` abandons the subtree and counts one access
error), and process its entries.  The fuel bounds the number of tasks; a
filesystem presenting unboundedly many directories would make the Python
loop run forever just as it exhausts the fuel here (`none`). -/
def scanLoop (fs : FileSystem) (p : Nat → Bool) (max_depth : Option Nat) :
    Nat → ScanState → Option ScanState
  | 0, st =>
    (match st.queue with
     | [] => some st
     | _ :: _ => none)
  | fuel + 1, st =>
    match st.queue with
    | [] => some st
    | (path, depth) :: qrest =>
        match isCancelledS p { st with queue := qrest } with
        | (true, stc) => scanLoop fs p max_depth fuel stc
        | (false, stc) =>
          match fs.scandir path with
          | none =>
            scanLoop fs p max_depth fuel
              { stc with access_errors := stc.access_errors + 1 }
          | some entries =>
            scanLoop fs p max_depth fuel
              (processEntries p max_depth path depth entries stc)

/-- Rebuild the tree from the parent-path → children map (the sequential
stand-in for the scanner's in-place `task.node.children.append`).  Scanning
a real filesystem records each directory's children once under its own
path, so the map is acyclic and the fuel (total number of recorded children,
plus one) always suffices; no claim inspects this tree. -/
def assembleNode (childMap : List (Str × List ScanNode)) :
    Nat → ScanNode → ScanNode
  | 0, node => node
  | fuel + 1, node =>
    match node with
    | .mk p n k sb du cs =>
      match k with
      | .file => .mk p n k sb du cs
      | .directory =>
        .mk p n k sb du
          ((match dictGet childMap p with
            | none => []
            | some l => l).map (assembleNode childMap fuel))

/-- Everything after the final `/`; the whole string when there is none
(`resolved.rsplit("/", 1)[-1]`). -/
def lastComponent (s : Str) : Str :=
  (s.reverse.takeWhile (fun c => !(c == '/'))).reverse

/-- `scan_path` (scanner.py:46-199), sequential single-worker model with
explicit fuel, returning the result together with the final observable
state (poll count and cancellation flag) for specification purposes. -/
def scan_path (fuel : Nat) (fs : FileSystem) (path : Str)
    (max_depth : Option Nat) (cancel_check : Nat → Bool) :
    Option (ScanResult × ScanState) :=
  let expanded := fs.expanduser path
  if ¬ fs.pathExists expanded then
    some (.error ⟨.not_found, expanded, "Path does not exist".toList⟩,
      initScanState [])
  else
    let resolved := fs.absolute expanded
    match fs.stat resolved with
    | none =>
      some (.error ⟨.root_stat_failed, resolved, "Cannot stat root".toList⟩,
        initScanState [])
    | some root_stat =>
      if ¬ root_stat.is_dir then
        some (.error ⟨.not_directory, resolved,
          "Path is not a directory".toList⟩, initScanState [])
      else
        let root_name :=
          if lastComponent resolved = [] then resolved
          else lastComponent resolved
        let root_node : ScanNode := .mk resolved root_name .directory 0 0 []
        match scanLoop fs cancel_check max_depth fuel
            (initScanState [(resolved, 0)]) with
        | none => none
        | some stF =>
          if stF.cancelFlag then
            some (.error ⟨.cancelled, resolved, "Scan cancelled".toList⟩, stF)
          else
            let assembleFuel :=
              (stF.childMap.map (fun kv => kv.2.length)).sum + 1
            let tree := finalizeNode (assembleNode stF.childMap assembleFuel
              root_node)
            some (.ok ⟨tree, ⟨stF.files, stF.directories, stF.access_errors⟩⟩,
              stF)

/-- The cancellation flag is set exactly when some performed probe returned
true. -/
def flagInv (p : Nat → Bool) (st : ScanState) : Prop :=
  st.cancelFlag = true ↔ ∃ i, i < st.polls ∧ p i = true

theorem isCancelledS_inv (p : Nat → Bool) (st : ScanState)
    (h : flagInv p st) : flagInv p (isCancelledS p st).2 := by
  unfold isCancelledS flagInv at *
  by_cases h1 : st.cancelFlag
  · simp only [if_pos h1]
    exact h
  · simp only [if_neg h1]
    by_cases h2 : p st.polls
    · simp only [if_pos h2]
      constructor
      · intro _
        exact ⟨st.polls, by omega, h2⟩
      · intro _
        trivial
    · simp only [if_neg h2]
      simp only [Bool.false_eq_true] at h1 ⊢
      constructor
      · intro hf
        exact absurd hf (by simpa using h1)
      · rintro ⟨i, hi, hpi⟩
        by_cases hlt : i < st.polls
        · exact absurd (h.2 ⟨i, hlt, hpi⟩) (by simpa using h1)
        · have : i = st.polls := by omega
          subst this
          exact absurd hpi (by simpa using h2)

theorem isCancelledS_pair (p : Nat → Bool) (st : ScanState) (b : Bool)
    (stc : ScanState) (heq : isCancelledS p st = (b, stc))
    (h : flagInv p st) : flagInv p stc := by
  have h2 := isCancelledS_inv p st h
  rw [heq] at h2
  exact h2

theorem processEntries_inv (p : Nat → Bool) (max_depth : Option Nat)
    (taskPath : Str) (depth : Nat) :
    ∀ (entries : List DirEntry) (st : ScanState), flagInv p st →
      flagInv p (processEntries p max_depth taskPath depth entries st) := by
  intro entries
  induction entries with
  | nil => intro st h; exact h
  | cons e rest ih =>
    intro st h
    simp only [processEntries]
    split
    · rename_i stc heq
      exact isCancelledS_pair p st _ stc heq h
    · rename_i stc heq
      have h2 : flagInv p stc := isCancelledS_pair p st _ stc heq h
      cases hst : e.stat with
      | none => exact ih _ h2
      | some stt =>
        simp only
        by_cases hdir : stt.is_dir
        · refine ih _ ?_
          simp only [flagInv] at h2 ⊢
          simpa [hdir] using h2
        · refine ih _ ?_
          simp only [flagInv] at h2 ⊢
          simpa [hdir] using h2

theorem scanLoop_inv (fs : FileSystem) (p : Nat → Bool)
    (max_depth : Option Nat) :
    ∀ (fuel : Nat) (st st' : ScanState), flagInv p st →
      scanLoop fs p max_depth fuel st = some st' → flagInv p st' := by
  intro fuel
  induction fuel with
  | zero =>
    intro st st' h hrun
    rw [scanLoop] at hrun
    split at hrun
    · cases hrun
      exact h
    · cases hrun
  | succ fuel ih =>
    intro st st' h hrun
    rw [scanLoop] at hrun
    split at hrun
    · cases hrun
      exact h
    · split at hrun
      · rename_i stc heq
        exact ih _ _ (isCancelledS_pair p _ _ stc heq h) hrun
      · rename_i stc heq
        have h2 : flagInv p stc := isCancelledS_pair p _ _ stc heq h
        split at hrun
        · exact ih _ _ (by exact h2) hrun
        · exact ih _ _ (processEntries_inv _ _ _ _ _ _ h2) hrun

/-- C8: whenever the cancellation probe returned true at any point the
scanner polled it during a completed run, `scan_path` returns `Err` with
code `Cancelled` — in particular no `ScanSnapshot` (no partial tree) is
returned from that call. -/
theorem scan_cancelled_err (fuel : Nat) (fs : FileSystem) (path : Str)
    (max_depth : Option Nat) (p : Nat → Bool) (r : ScanResult)
    (st : ScanState)
    (hrun : scan_path fuel fs path max_depth p = some (r, st))
    (hpoll : ∃ i, i < st.polls ∧ p i = true) :
    ∃ e : ScanError, r = .error e ∧ e.code = .cancelled := by
  unfold scan_path at hrun
  dsimp only at hrun
  split at hrun
  · simp only [Option.some.injEq, Prod.mk.injEq] at hrun
    rcases hrun with ⟨-, hst⟩
    rcases hpoll with ⟨i, hi, -⟩
    rw [← hst] at hi
    simp [initScanState] at hi
  · split at hrun
    · simp only [Option.some.injEq, Prod.mk.injEq] at hrun
      rcases hrun with ⟨-, hst⟩
      rcases hpoll with ⟨i, hi, -⟩
      rw [← hst] at hi
      simp [initScanState] at hi
    · split at hrun
      · simp only [Option.some.injEq, Prod.mk.injEq] at hrun
        rcases hrun with ⟨-, hst⟩
        rcases hpoll with ⟨i, hi, -⟩
        rw [← hst] at hi
        simp [initScanState] at hi
      · rename_i resolvedStat
        split at hrun
        · cases hrun
        · rename_i stF hloop
          have hinit : flagInv p (initScanState [(fs.absolute (fs.expanduser path), 0)]) := by
            simp [flagInv, initScanState]
          have hstF := scanLoop_inv fs p max_depth fuel _ stF hinit hloop
          split at hrun
          · rename_i hflag
            simp only [Option.some.injEq, Prod.mk.injEq] at hrun
            rcases hrun with ⟨hr, -⟩
            exact ⟨_, hr.symm, rfl⟩
          · rename_i hflag
            simp only [Option.some.injEq, Prod.mk.injEq] at hrun
            rcases hrun with ⟨-, hst⟩
            subst hst
            exact absurd (hstF.2 hpoll) hflag

/-- Filesystem for the C8 witness: one directory `/r` holding one file. -/
def fsC8 : FileSystem :=
  { expanduser := fun s => s
    pathExists := fun _ => true
    absolute := fun s => s
    stat := fun path =>
      if path == "/r".toList then some ⟨0, 0, true⟩ else some ⟨1, 1, false⟩
    scandir := fun path =>
      if path == "/r".toList then
        some [⟨"/r/a".toList, "a".toList, some ⟨1, 1, false⟩⟩]
      else some [] }

/-- Probe for the C8 witness: cancel at the first poll. -/
def pC8 : Nat → Bool := fun _ => true

/-- The final state of the C8 witness run: the first poll cancels, the one
queued task is drained. -/
def stC8 : ScanState := ⟨[], true, 1, 0, 1, 0, []⟩

/-- The returned error of the C8 witness run. -/
def errC8 : ScanError :=
  ⟨.cancelled, "/r".toList, "Scan cancelled".toList⟩

/-- Witness for C8 at a concrete filesystem, probe, and fuel. -/
theorem scan_cancelled_err_witness :
    scan_path 10 fsC8 "/r".toList none pC8 = some (.error errC8, stC8)
      ∧ (0 < stC8.polls ∧ pC8 0 = true)
      ∧ ∃ e : ScanError,
          (Except.error errC8 : ScanResult) = .error e ∧ e.code = .cancelled :=
  ⟨by rfl, ⟨by decide, by decide⟩,
    scan_cancelled_err 10 fsC8 "/r".toList none pC8 (.error errC8) stC8
      (by rfl) ⟨0, by decide, by decide⟩⟩

end Dux
